import Mathlib

/-!
# mpq-extract: name table, path materialisation, extract and list drivers

A shallow embedding of `src/mpq-extract.c`.

Conventions of the embedding.

* A C string (`char *` read up to its terminator) is the list of its bytes before the NUL.
* A zero-filled `PATH_MAX` array (`calloc(1, PATH_MAX)`, `char b[PATH_MAX] = {0,}`,
  `memset(b, 0, PATH_MAX)`) is held as the list of its leading bytes: every byte past the end
  of the list is NUL.  Reading such an array as a string is undefined when no NUL lies
  within its `PATH_MAX` bytes.
* A function whose C execution can leave defined behaviour (array read as an unterminated
  string, slot read outside the table) or whose loop is run on fuel returns `Option`;
  `none` is "no defined result".  `get_listfile` says how its run ends (`Ran`).
* `get_listfile` runs `strtok` on the block `malloc(listfile_size)` without writing a
  terminator, so `strtok` reads on into the bytes that follow the block.  Those bytes are
  the field `heap_after` of `World`: a statement over every `heap_after` holds whatever the
  heap holds.  A run completes (`Ran.done`) when it writes only inside the block and the
  table.  A NUL that `strtok` would write outside the block, a run that finds no NUL in the
  block and the bytes after it, and an assignment to a slot outside the table end the run
  without a result.
* The archive library (libmpq), the file system and the allocator are oracles collected in
  `World`; every oracle sees the events issued so far, so its answers may change over time.
* Console output is not modelled.
-/

namespace MpqExtract

/-! ## Constants of the C environment -/

/-- The constant `PATH_MAX` of `<limits.h>` (Linux value). -/
def PATH_MAX : Nat := 4096

/-- The errno value `EACCES` of `<errno.h>`. -/
def EACCES : Nat := 13

/-- The errno value `ENOTDIR` of `<errno.h>`. -/
def ENOTDIR : Nat := 20

/-- The constant `UINT_MAX`: the value of `-1` converted to `unsigned int`. -/
def UINT_MAX : Nat := 2 ^ 32 - 1

/-- The constant `LIBMPQ_ERROR_OPEN` of libmpq's header `mpq.h` (libmpq 0.4.2). -/
def LIBMPQ_ERROR_OPEN : Int := -1

/-- The constant `LIBMPQ_ERROR_CLOSE` of libmpq's header `mpq.h` (libmpq 0.4.2). -/
def LIBMPQ_ERROR_CLOSE : Int := -2

/-- The constant `LIBMPQ_ERROR_MALLOC` of libmpq's header `mpq.h` (libmpq 0.4.2). -/
def LIBMPQ_ERROR_MALLOC : Int := -6

/-- The constant `LIBMPQ_ERROR_FORMAT` of libmpq's header `mpq.h` (libmpq 0.4.2). -/
def LIBMPQ_ERROR_FORMAT : Int := -7

/-- The constant `LIBMPQ_ERROR_EXIST` of libmpq's header `mpq.h` (libmpq 0.4.2); the spec's
`NotFound`. -/
def LIBMPQ_ERROR_EXIST : Int := -10

/-- The NUL byte. -/
def NUL : Char := Char.ofNat 0

/-- Carriage return. -/
def CR : Char := Char.ofNat 13

/-- Line feed. -/
def LF : Char := Char.ofNat 10

/-- The backslash byte. -/
def BACKSLASH : Char := Char.ofNat 92

/-- The forward slash byte. -/
def SLASH : Char := Char.ofNat 47

/-- A zero-filled array of `PATH_MAX` bytes, held as its leading bytes. -/
abbrev Buf := List Char

/-- The bytes of a buffer before its first NUL (what `strlen`, `strtok`, `%s` see). -/
def cstr (b : List Char) : List Char := b.takeWhile (fun c => c != NUL)

/-- Reading a `PATH_MAX` array as a string: defined when a NUL lies within the array. -/
def readCStr (b : Buf) : Option (List Char) :=
  if (cstr b).length < PATH_MAX then some (cstr b) else none

/-! ## Events and oracles -/

/-- Calls made to the file system and to the archive library, in program order. -/
inductive Event where
  | mkdirat (path : List Char)
  | fopen (path : List Char)
  | file_size_packed (file_number : Nat)
  | file_size_unpacked (file_number : Nat)
  | file_encrypted (file_number : Nat)
  | file_compressed (file_number : Nat)
  | file_imploded (file_number : Nat)
  | file_read (file_number : Nat)
  | fwrite (size : Nat)
  | fclose
  | destroy_listfile
  | archive_size_packed
  | archive_size_unpacked
  | archive_close
  deriving DecidableEq, Repr

/-- The collaborators: the archive library, the file system and the allocator. -/
structure World where
  /-- result of `libmpq__archive_open` (negative on failure) -/
  archive_open : Int
  /-- value stored by `libmpq__archive_files` -/
  archive_files : Nat
  /-- `libmpq__file_number(archive, "(listfile)", ..)`: the entry number of the listing and
  the bytes the block `list` of `listfile_size` bytes holds after `libmpq__file_read`, or
  `none` when the call fails.  The three library calls of `get_listfile` are folded into
  this field and raise no event -/
  listfile : Option (Nat × List Char)
  /-- the bytes that follow the block `list` in memory -/
  heap_after : List Char
  /-- `mkdirat`: `none` on success, `some errno` on failure -/
  mkdirat : List Event → List Char → Option Nat
  /-- `fopen(filename, "wb")`: whether a stream is returned -/
  fopen : List Event → List Char → Bool
  /-- value stored by `libmpq__file_size_unpacked` (0 when it stores nothing) -/
  file_size_unpacked : List Event → Nat → Nat
  /-- `malloc`: whether a non-null pointer is returned -/
  malloc : List Event → Nat → Bool
  /-- result of `libmpq__file_read` -/
  file_read : List Event → Nat → Int
  /-- result of `fclose` -/
  fclose : List Event → Int

/-! ## convert_path and create_dirs -/

/-- Source `convert_path`: every backslash of the string held in `filename` becomes a slash. -/
def convert_path (filename : Buf) : Option Buf :=
  match readCStr filename with
  | none => none
  | some s =>
    some (s.map (fun c => if c = BACKSLASH then SLASH else c) ++ filename.drop s.length)

/-- Scan of `strchr`: position of the first `c` in `s`, whose head sits at position `pos`. -/
def strchrFrom : List Char → Nat → Char → Option Nat
  | [], _, _ => none
  | x :: xs, pos, c => if x = c then some pos else strchrFrom xs (pos + 1) c

/-- The call `strchr(path + start, c)` as a position in `path`; `none` is the null pointer. -/
def strchr (path : List Char) (start : Nat) (c : Char) : Option Nat :=
  strchrFrom (path.drop start) start c

/-- The `while(start)` loop of `create_dirs`; `start` is the position of the current slash,
`curr_path` the scratch array, `tr` the events so far.  Result: return value and events. -/
def create_dirs_loop (mkdirat : List Event → List Char → Option Nat) (path : List Char) :
    Nat → Option Nat → Buf → List Event → Option (Nat × List Event)
  | 0, _, _, _ => none
  | _ + 1, none, _, tr => some (0, tr)
  | fuel + 1, some q, curr_path, tr =>
    if q ≤ PATH_MAX then
      -- memcpy(curr_path, path, (start-path))
      let curr_path := path.take q ++ curr_path.drop q
      match readCStr curr_path with
      | none => none
      | some dir =>
        match mkdirat tr dir with
        | some res =>
          if res = EACCES then some (EACCES, tr ++ [Event.mkdirat dir])
          else if res = ENOTDIR then some (ENOTDIR, tr ++ [Event.mkdirat dir])
          else create_dirs_loop mkdirat path fuel (strchr path (q + 1) SLASH) curr_path
            (tr ++ [Event.mkdirat dir])
        | none =>
          create_dirs_loop mkdirat path fuel (strchr path (q + 1) SLASH) curr_path
            (tr ++ [Event.mkdirat dir])
    else none

/-- Source `create_dirs`: one `mkdirat` per slash of `path`. -/
def create_dirs (mkdirat : List Event → List Char → Option Nat) (path : List Char)
    (tr : List Event) : Option (Nat × List Event) :=
  create_dirs_loop mkdirat path (path.length + 1) (strchr path 0 SLASH) [] tr

/-! ## The name table -/

/-- The struct `listfile_s`; `entries[i] = none` is a null pointer. -/
structure listfile_s where
  num_entries : Nat
  entries : List (Option Buf)
  is_loaded : Bool
  deriving DecidableEq, Repr

/-- The zero-initialised global `listfile`. -/
def listfile_init : listfile_s := ⟨0, [], false⟩

/-- The delimiter set `"\r\n"` of the `strtok` calls. -/
def isDelim (c : Char) : Bool := c == CR || c == LF

/-- How a run of `get_listfile` ends. -/
inductive Ran (α : Type) where
  /-- the run completes with this result: every write was inside the block or the table -/
  | done (a : α)
  /-- with an assignment to a slot outside the table: the slots assigned to so far, the last
  one being the slot outside -/
  | store_past_table (stores : List Nat)
  /-- without a result otherwise: `strtok` found no NUL in the memory it read, or had to
  write a NUL outside the block, or a slot outside the table was read -/
  | undefined
  /-- with the fuel of the model used up -/
  | out_of_fuel
  deriving DecidableEq, Repr

/-- One `strtok(.., "\r\n")` call.  `s` is the memory from the saved position on and `room`
the number of its leading bytes that lie inside the block.  The call skips delimiters, takes
the bytes up to the next delimiter or NUL as the token and overwrites a delimiter that ends
the token with NUL.  Result: the token (`none` is the null pointer), the memory from the new
saved position on and its `room`; `none` when no NUL is found or the NUL is to be written
outside the block. -/
def strtok (s : List Char) (room : Nat) : Option (Option (List Char) × List Char × Nat) :=
  let skipped := (s.takeWhile isDelim).length
  match s.dropWhile isDelim with
  | [] => none
  | c :: t =>
    if c = NUL then some (none, c :: t, room - skipped)
    else
      let tok := (c :: t).takeWhile (fun x => !isDelim x && x != NUL)
      match (c :: t).dropWhile (fun x => !isDelim x && x != NUL) with
      | [] => none
      | d :: t2 =>
        if d = NUL then some (some tok, d :: t2, room - (skipped + tok.length))
        else if skipped + tok.length < room then
          some (some tok, t2, room - (skipped + tok.length + 1))
        else none

/-- The array made by `calloc(1, PATH_MAX)` followed by the length-capped `memcpy` of `file`. -/
def newEntry (file : List Char) : Buf :=
  if file.length < PATH_MAX then file.take file.length else file.take PATH_MAX

/-- The label stored in the listing's own slot. -/
def listfile_txt : List Char := "listfile.txt".toList

/-- Loop state of `get_listfile`: the counter, the current token, the state of `strtok`
(`rest`, `room`), the table, and `stores`, the slot indices assigned to, in order. -/
structure Build where
  i : Nat
  file : Option (List Char)
  rest : List Char
  room : Nat
  entries : List (Option Buf)
  stores : List Nat
  deriving DecidableEq, Repr

/-- The assignment `listfile.entries[i] = buffer` to a slot of the table. -/
def Build.store (b : Build) (i : Nat) (v : Buf) : Build :=
  { b with entries := b.entries.set i (some v), stores := b.stores ++ [i] }

/-- The `for(i = 0; i < total_files; i++)` loop of `get_listfile`.  The assignment of the
label is to slot `i < total_files`; the assignment of a line comes after the `i++` of the
label branch without a new test of `i`, so it can name the slot `total_files`. -/
def get_listfile_loop (total_files listfile_number : Nat) : Nat → Build → Ran Build
  | 0, _ => Ran.out_of_fuel
  | fuel + 1, b =>
    if b.i < total_files then
      let b1 :=
        if b.i = listfile_number then
          { (b.store b.i (newEntry listfile_txt)) with i := b.i + 1 }
        else b
      match b1.file with
      | none => Ran.done b1
      | some file =>
        if b1.i < total_files then
          let b2 := b1.store b1.i (newEntry file)
          match strtok b1.rest b1.room with
          | none => Ran.undefined
          | some (file2, rest2, room2) =>
            get_listfile_loop total_files listfile_number fuel
              { b2 with i := b2.i + 1, file := file2, rest := rest2, room := room2 }
        else Ran.store_past_table (b1.stores ++ [b1.i])
    else Ran.done b

/-- What `get_listfile` leaves behind: the global, the slots assigned to, and whether the
"listfile incomplete" notice was printed. -/
structure Built where
  listfile : listfile_s
  stores : List Nat
  incomplete : Bool
  deriving DecidableEq, Repr

/-- Source `get_listfile`, on the previous value `prev` of the global `listfile`. -/
def get_listfile (w : World) (total_files : Nat) (prev : listfile_s) : Ran Built :=
  match w.listfile with
  | none => Ran.done ⟨prev, [], false⟩
  | some (listfile_number, list) =>
    match strtok (list ++ w.heap_after) list.length with
    | none => Ran.undefined
    | some (file, rest, room) =>
      match get_listfile_loop total_files listfile_number (total_files + 1)
          ⟨0, file, rest, room, List.replicate total_files none, []⟩ with
      | Ran.done b =>
        match b.entries[listfile_number]? with
        | none => Ran.undefined
        | some (some _) =>
          Ran.done ⟨⟨total_files, b.entries, true⟩, b.stores, b.i != total_files⟩
        | some none =>
          Ran.done ⟨⟨total_files, (b.store listfile_number (newEntry listfile_txt)).entries,
            true⟩, (b.store listfile_number (newEntry listfile_txt)).stores,
            b.i != total_files⟩
      | Ran.store_past_table stores => Ran.store_past_table stores
      | Ran.undefined => Ran.undefined
      | Ran.out_of_fuel => Ran.out_of_fuel

/-- Source `destroy_listfile`. -/
def destroy_listfile (l : listfile_s) : listfile_s :=
  if !l.is_loaded then l else ⟨0, [], false⟩

/-- Left-padding with `'0'` to `width` characters. -/
def zeroPad (width : Nat) (digits : List Char) : List Char :=
  List.replicate (width - digits.length) '0' ++ digits

/-- The value `printf` reads for `%i` when handed a `uint32_t`: the same 32 bits as a signed
`int` (two's complement). -/
def asInt (n : Nat) : Int :=
  if n % 2 ^ 32 < 2 ^ 31 then (n % 2 ^ 32 : Nat) else ((n % 2 ^ 32 : Nat) : Int) - 2 ^ 32

/-- The conversion `%06i`. -/
def fmt_06i (v : Int) : List Char :=
  if 0 ≤ v then zeroPad 6 (Nat.toDigits 10 v.toNat)
  else '-' :: zeroPad 5 (Nat.toDigits 10 (-v).toNat)

/-- The call `snprintf(filename, filename_size, "file%06i.xxx", file_number)` on a zeroed
array: return value and array. -/
def snprintf_file (filename_size : Nat) (file_number : Nat) : Int × Buf :=
  let s := "file".toList ++ fmt_06i (asInt file_number) ++ ".xxx".toList
  (s.length, s.take (filename_size - 1))

/-- Source `libmpq__file_name`: return value and the array `filename`. -/
def libmpq__file_name (l : listfile_s) (file_number : Nat) (filename_size : Nat) :
    Option (Int × Buf) :=
  let placeholder : Option (Int × Buf) :=
    let r := snprintf_file filename_size file_number
    if r.1 < 0 then some (LIBMPQ_ERROR_FORMAT, r.2) else some r
  if l.is_loaded then
    match l.entries.get? file_number with
    | none => none
    | some (some e) => some (PATH_MAX, e)
    | some none => placeholder
  else placeholder

/-! ## Extraction -/

/-- Source `mpq_extract__extract_file`: return value and events.  The test
`filename == NULL` is on an array and never holds. -/
def mpq_extract__extract_file (w : World) (l : listfile_s) (file_number : Nat)
    (tr : List Event) : Option (Int × List Event) :=
  match libmpq__file_name l file_number PATH_MAX with
  | none => none
  | some _ =>
    let out_size := w.file_size_unpacked tr file_number
    let tr := tr ++ [Event.file_size_unpacked file_number]
    if w.malloc tr out_size = false then some (LIBMPQ_ERROR_MALLOC, tr)
    else
      let result := w.file_read tr file_number
      let tr := tr ++ [Event.file_read file_number]
      if result < 0 then some (result, tr)
      else some (0, tr ++ [Event.fwrite out_size])

/-- How a block of `mpq_extract__extract` ends: with a `return` (value, global `listfile`,
events) or by falling through to the code after it. -/
inductive Step where
  | ret (result : Int) (l : listfile_s) (tr : List Event)
  | next (tr : List Event)
  deriving DecidableEq, Repr

/-- The `if (file_number != -1)` branch of `mpq_extract__extract` (one entry). -/
def extract_one (w : World) (l : listfile_s) (file_number : Nat) (tr : List Event) :
    Option Step :=
  match libmpq__file_name l file_number PATH_MAX with
  | none => none
  | some (_, filename) =>
    match convert_path filename with
    | none => none
    | some filename =>
      match readCStr filename with
      | none => none
      | some path =>
        match create_dirs w.mkdirat path tr with
        | none => none
        | some (r, tr) =>
          if r ≠ 0 then
            some (Step.ret LIBMPQ_ERROR_OPEN (destroy_listfile l) (tr ++ [Event.destroy_listfile]))
          else if w.fopen tr path = false then
            some (Step.ret LIBMPQ_ERROR_OPEN (destroy_listfile l)
              (tr ++ [Event.fopen path, Event.destroy_listfile]))
          else
            match mpq_extract__extract_file w l file_number (tr ++ [Event.fopen path]) with
            | none => none
            | some (result, tr) =>
              if result < 0 then
                if w.fclose tr < 0 then some (Step.ret LIBMPQ_ERROR_CLOSE l (tr ++ [Event.fclose]))
                else
                  some (Step.ret result (destroy_listfile l)
                    (tr ++ [Event.fclose, Event.destroy_listfile, Event.archive_close]))
              else if w.fclose tr < 0 then
                some (Step.ret LIBMPQ_ERROR_CLOSE l (tr ++ [Event.fclose]))
              else some (Step.next (tr ++ [Event.fclose]))

/-- The body of the `for (i = 0; i < total_files; i++)` loop of `mpq_extract__extract`. -/
def extract_body (w : World) (l : listfile_s) (i : Nat) (tr : List Event) : Option Step :=
  match libmpq__file_name l i PATH_MAX with
  | none => none
  | some (_, filename) =>
    match convert_path filename with
    | none => none
    | some filename =>
      match readCStr filename with
      | none => none
      | some path =>
        match create_dirs w.mkdirat path tr with
        | none => none
        | some (r, tr) =>
          if r ≠ 0 then
            some (Step.ret LIBMPQ_ERROR_OPEN (destroy_listfile l) (tr ++ [Event.destroy_listfile]))
          else if w.fopen tr path = false then
            some (Step.ret LIBMPQ_ERROR_OPEN l (tr ++ [Event.fopen path]))
          else
            match mpq_extract__extract_file w l i (tr ++ [Event.fopen path]) with
            | none => none
            | some (result, tr) =>
              if result < 0 then
                if w.fclose tr < 0 then some (Step.ret LIBMPQ_ERROR_CLOSE l (tr ++ [Event.fclose]))
                else
                  some (Step.ret result (destroy_listfile l)
                    (tr ++ [Event.fclose, Event.destroy_listfile, Event.archive_close]))
              else if w.fclose tr < 0 then
                some (Step.ret LIBMPQ_ERROR_CLOSE l (tr ++ [Event.fclose]))
              else some (Step.next (tr ++ [Event.fclose]))

/-- The loop `for (i = 0; i < total_files; i++)` of `mpq_extract__extract`, with `remaining`
iterations to go from `i`. -/
def extract_loop (w : World) (l : listfile_s) : Nat → Nat → List Event → Option Step
  | 0, _, tr => some (Step.next tr)
  | remaining + 1, i, tr =>
    match extract_body w l i tr with
    | none => none
    | some (Step.ret result l1 tr) => some (Step.ret result l1 tr)
    | some (Step.next tr) => extract_loop w l remaining (i + 1) tr

/-- Source `mpq_extract__extract`, on the previous value `prev` of the global `listfile`:
return value, the global afterwards, and the events. -/
def mpq_extract__extract (w : World) (file_number : Nat) (prev : listfile_s) :
    Option (Int × listfile_s × List Event) :=
  if w.archive_open < 0 then some (w.archive_open, prev, [])
  else
    let total_files := w.archive_files
    match get_listfile w total_files prev with
    | Ran.store_past_table _ => none
    | Ran.undefined => none
    | Ran.out_of_fuel => none
    | Ran.done built =>
      let l := built.listfile
      let body :=
        if file_number ≠ UINT_MAX then extract_one w l file_number []
        else extract_loop w l total_files 0 []
      match body with
      | none => none
      | some (Step.ret result l1 tr) => some (result, l1, tr)
      | some (Step.next tr) =>
        some (0, destroy_listfile l, tr ++ [Event.destroy_listfile, Event.archive_close])

/-! ## Listing -/

/-- The five metadata queries made for one entry. -/
def metadata_queries (i : Nat) : List Event :=
  [Event.file_size_packed i, Event.file_size_unpacked i, Event.file_encrypted i,
    Event.file_compressed i, Event.file_imploded i]

/-- The loop `for (i = 0; i < total_files; i++)` of `mpq_extract__list`. -/
def list_loop (l : listfile_s) : Nat → Nat → List Event → Option (List Event)
  | 0, _, tr => some tr
  | remaining + 1, i, tr =>
    match libmpq__file_name l i PATH_MAX with
    | none => none
    | some _ => list_loop l remaining (i + 1) (tr ++ metadata_queries i)

/-- Source `mpq_extract__list`, on the previous value `prev` of the global `listfile`:
return value, the global afterwards, and the events.  `number` and `files` only steer the
printing of an empty line. -/
def mpq_extract__list (w : World) (file_number _number _files : Nat) (prev : listfile_s) :
    Option (Int × listfile_s × List Event) :=
  if w.archive_open < 0 then some (w.archive_open, prev, [])
  else
    let total_files := w.archive_files
    match get_listfile w total_files prev with
    | Ran.store_past_table _ => none
    | Ran.undefined => none
    | Ran.out_of_fuel => none
    | Ran.done built =>
      let l := built.listfile
      if file_number ≠ UINT_MAX then
        -- `file_number > total_files - 1` in `unsigned int`
        if file_number > (total_files + 2 ^ 32 - 1) % 2 ^ 32 then
          some (LIBMPQ_ERROR_EXIST, l, [])
        else
          match libmpq__file_name l file_number PATH_MAX with
          | none => none
          | some _ =>
            some (0, destroy_listfile l,
              metadata_queries file_number ++ [Event.destroy_listfile, Event.archive_close])
      else
        match list_loop l total_files 0 [] with
        | none => none
        | some tr =>
          some (0, destroy_listfile l,
            tr ++ [Event.archive_size_packed, Event.archive_size_unpacked,
              Event.destroy_listfile, Event.archive_close])

/-- The floating-point operations the ratio uses, as exact rationals followed by rounding:
`toFloat` is the conversion `(float)` of an `off_t`, `rnd` rounds an exact result to `float`,
`rndD` rounds an exact result to `double`. -/
structure FloatArith where
  toFloat : Int → ℚ
  rnd : ℚ → ℚ
  rndD : ℚ → ℚ

/-- What the ratio theorems need of the arithmetic: 0, 1 and 100 are representable (rounding
leaves them alone), the conversion of 0 is 0 and that of a positive size is not 0. -/
structure FloatArith.Sound (F : FloatArith) : Prop where
  rnd_zero : F.rnd 0 = 0
  rnd_one : F.rnd 1 = 1
  rnd_hundred : F.rnd 100 = 100
  rndD_zero : F.rndD 0 = 0
  rndD_hundred : F.rndD 100 = 100
  toFloat_zero : F.toFloat 0 = 0
  toFloat_pos : ∀ u : Int, 0 < u → F.toFloat u ≠ 0

/-- The expression `(100 - fabs(((float)size_packed / (float)size_unpacked * 100)))` of
`mpq_extract__list` (lines 272, 306, 328). -/
def ratio (F : FloatArith) (size_packed size_unpacked : Int) : ℚ :=
  F.rndD (100 - |F.rnd (F.rnd (F.toFloat size_packed / F.toFloat size_unpacked) * 100)|)

/-- Exact arithmetic: no rounding. -/
def exactArith : FloatArith := ⟨fun n => (n : ℚ), fun q => q, fun q => q⟩

/-! ## Reference notions used to state the properties -/

/-- Positions of the slashes of `s`, whose head sits at position `pos`, left to right. -/
def slashesFrom : List Char → Nat → List Nat
  | [], _ => []
  | c :: cs, pos =>
    if c = SLASH then pos :: slashesFrom cs (pos + 1) else slashesFrom cs (pos + 1)

/-- The lines of a listing: the maximal non-empty runs of bytes other than CR and LF, in
order. -/
def specLines (content : List Char) : List (List Char) :=
  (content.splitOnP isDelim).filter (fun l => !l.isEmpty)

/-- Tokenising a text without NUL: its first line and the text after the delimiter that ends
it. -/
def strtokText (s : List Char) : Option (List Char) × List Char :=
  match s.dropWhile isDelim with
  | [] => (none, [])
  | c :: t =>
    (some ((c :: t).takeWhile (fun x => !isDelim x)),
      ((c :: t).dropWhile (fun x => !isDelim x)).drop 1)

/-- A name whose first byte is not NUL. -/
def NonEmptyName (name : List Char) : Prop := ∃ c rest, name = c :: rest ∧ c ≠ NUL

/-- The name the placeholder rule describes: `file`, the decimal digits of `i` left-padded
with zeros to 6 digits, `.xxx`. -/
def placeholder_name (i : Nat) : List Char :=
  "file".toList ++ zeroPad 6 (Nat.toDigits 10 i) ++ ".xxx".toList

/-- The slot contents the listing rule describes for slot `j`, the listing being entry `k`
and its lines `T`: the label in slot `k`, line `j` below it, line `j - 1` above it. -/
def expectedEntry (T : List (List Char)) (k j : Nat) : Option Buf :=
  if j = k then some (newEntry listfile_txt)
  else (T[if j < k then j else j - 1]?).map newEntry

/-- An archive of `n` entries without listing, in a world where every call succeeds. -/
def plainWorld (n : Nat) : World :=
  ⟨0, n, none, [], fun _ _ => none, fun _ _ => true, fun _ _ => 0, fun _ _ => true,
    fun _ _ => 0, fun _ => 0⟩

/-- Number of listing lines consumed when the loop counter of `get_listfile` is `i`. -/
def consumed (k i : Nat) : Nat := if i ≤ k then i else i - 1

/-- Invariant of the `get_listfile` loop at its head, for a listing whose text (the bytes
`strtok` reads up to the first NUL) has the lines `T` and lies inside the block. -/
structure LoopInv (total k : Nat) (T : List (List Char)) (b : Build) : Prop where
  len : b.entries.length = total
  file : b.file = T[consumed k b.i]?
  nul : NUL ∈ b.rest
  room : (cstr b.rest).length ≤ b.room
  rest : specLines (cstr b.rest) = T.drop (consumed k b.i + 1)
  slots : ∀ j, j < total → b.entries[j]? = some (if j < b.i then expectedEntry T k j else none)
  stores : ∀ s ∈ b.stores, s < total

/-- What holds when the `get_listfile` loop is left. -/
structure LoopPost (total k : Nat) (T : List (List Char)) (b : Build) : Prop where
  len : b.entries.length = total
  slots : ∀ j, j < total → j ≠ k → b.entries[j]? = some (expectedEntry T k j)
  own : k < total →
    b.entries[k]? = some none ∨ b.entries[k]? = some (some (newEntry listfile_txt))
  stores : ∀ s ∈ b.stores, s < total

/-- Invariant of the `get_listfile` loop that every run keeps: the table has `total` slots
and every name in it, as the current token, starts with a byte other than NUL. -/
structure NamesInv (total : Nat) (b : Build) : Prop where
  len : b.entries.length = total
  file : ∀ f, b.file = some f → NonEmptyName f
  slots : ∀ e, some e ∈ b.entries → NonEmptyName e

/-- Entry numbers handed to `libmpq__file_read`, in order. -/
def readsOf (tr : List Event) : List Nat :=
  tr.filterMap (fun e => match e with
    | Event.file_read n => some n
    | _ => none)

/-- Paths handed to `fopen`, in order. -/
def opensOf (tr : List Event) : List (List Char) :=
  tr.filterMap (fun e => match e with
    | Event.fopen p => some p
    | _ => none)

/-- The directories `create_dirs` is to attempt for `path`: its prefix before each slash. -/
def dirsOf (path : List Char) : List Event :=
  ((List.range path.length).filter (fun q => decide (path[q]? = some SLASH))).map
    (fun q => Event.mkdirat (path.take q))

/-- Every name the table resolves for an index below `total` is terminated within its
array. -/
def NamesOK (l : listfile_s) (total : Nat) : Prop :=
  ∀ j, j < total → ∃ r name n, libmpq__file_name l j PATH_MAX = some (r, name) ∧
    readCStr name = some n

/-- A world whose directory creation never fails with `EACCES` or `ENOTDIR` and whose
`fopen`, `malloc` and `fclose` always succeed. -/
structure Benign (w : World) : Prop where
  mkdirat : ∀ tr dir, w.mkdirat tr dir ≠ some EACCES ∧ w.mkdirat tr dir ≠ some ENOTDIR
  fopen : ∀ tr p, w.fopen tr p = true
  malloc : ∀ tr n, w.malloc tr n = true
  fclose : ∀ tr, ¬ w.fclose tr < 0

/-- An archive of 3 entries without listing whose entry 1 cannot be read:
`libmpq__file_read` answers `LIBMPQ_ERROR_EXIST` for it. -/
def notFoundWorld : World :=
  { plainWorld 3 with file_read := fun _ j => if j = 1 then LIBMPQ_ERROR_EXIST else 0 }

/-- An archive of 3 entries whose listing, entry 1, names `a` and `b`; the byte after the
listing block is NUL. -/
def listedWorld : World :=
  { plainWorld 3 with listfile := some (1, "a\nb".toList), heap_after := [NUL] }

/-- The scenario of the spec, an archive of 3 entries whose listing, entry 1, holds
`a/b.txt`, LF, `c.txt`, the byte after the listing block being NUL. -/
def scenarioWorld : World :=
  { plainWorld 3 with
    listfile := some (1, "a/b.txt\nc.txt".toList), heap_after := [NUL] }

/-- The same scenario with the 13 bytes filling their heap block: the byte after the block
is `!` (0x21, the size field of the next heap chunk), the one after that NUL. -/
def overreadWorld : World :=
  { plainWorld 3 with
    listfile := some (1, "a/b.txt\nc.txt".toList), heap_after := ['!', NUL] }

/-- An archive of 3 entries whose listing, entry 2, holds the bytes `a`, NUL, `b`, LF, `c`. -/
def nulWorld : World :=
  { plainWorld 3 with listfile := some (2, ['a', NUL, 'b', LF, 'c']) }

/-! ## Theorems -/

theorem cstr_eq_self {s : List Char} (h : NUL ∉ s) : cstr s = s := by
  unfold cstr
  rw [List.takeWhile_eq_self_iff]
  intro x hx
  simp only [bne_iff_ne, ne_eq]
  rintro rfl
  exact h hx

theorem nul_not_mem_cstr (b : List Char) : NUL ∉ cstr b := by
  intro h
  have := List.mem_takeWhile_imp h
  simp at this

theorem takeWhile_drop_takeWhile (p : Char → Bool) (b : List Char) :
    (b.drop (b.takeWhile p).length).takeWhile p = [] := by
  induction b with
  | nil => simp
  | cons x xs ih =>
    by_cases hx : p x = true
    · rw [List.takeWhile_cons_of_pos hx, List.length_cons, List.drop_succ_cons]
      exact ih
    · rw [List.takeWhile_cons_of_neg hx, List.length_nil, List.drop_zero,
        List.takeWhile_cons_of_neg hx]

theorem cstr_append_drop (b s : List Char) (hs : NUL ∉ s) :
    cstr (s ++ b.drop (cstr b).length) = s := by
  unfold cstr
  rw [List.takeWhile_append_of_pos, takeWhile_drop_takeWhile, List.append_nil]
  intro a ha
  simp only [bne_iff_ne, ne_eq]
  rintro rfl
  exact hs ha

theorem readCStr_some {b : Buf} {n : List Char} (h : readCStr b = some n) :
    n = cstr b ∧ n.length < PATH_MAX ∧ NUL ∉ n := by
  unfold readCStr at h
  split at h
  · cases h
    exact ⟨rfl, by assumption, nul_not_mem_cstr b⟩
  · cases h

theorem readCStr_of {s : List Char} (h : NUL ∉ s) (hlen : s.length < PATH_MAX) :
    readCStr s = some s := by
  unfold readCStr
  rw [cstr_eq_self h, if_pos hlen]

theorem strchrFrom_none {s : List Char} {a : Nat} {c : Char} (h : strchrFrom s a c = none)
    (hc : c = SLASH) :
    slashesFrom s a = [] := by
  subst hc
  induction s generalizing a with
  | nil => rfl
  | cons x xs ih =>
    unfold strchrFrom at h
    split at h
    · cases h
    · rename_i hx
      simp only [slashesFrom, if_neg hx]
      exact ih h

theorem strchrFrom_some {s : List Char} {a q : Nat} (h : strchrFrom s a SLASH = some q) :
    a ≤ q ∧ q < a + s.length ∧
      slashesFrom s a = q :: slashesFrom (s.drop (q - a + 1)) (q + 1) := by
  induction s generalizing a with
  | nil => cases h
  | cons x xs ih =>
    unfold strchrFrom at h
    split at h
    · rename_i hx
      cases h
      simp [slashesFrom, hx]
    · rename_i hx
      obtain ⟨h1, h2, h3⟩ := ih h
      refine ⟨by omega, by simp; omega, ?_⟩
      simp only [slashesFrom, if_neg hx]
      rw [h3]
      have : q - a + 1 = (q - (a + 1) + 1) + 1 := by omega
      rw [this, List.drop_succ_cons]

theorem create_dirs_loop_spec (mkdirat : List Event → List Char → Option Nat) (p : List Char)
    (hnul : NUL ∉ p) (hlen : p.length < PATH_MAX)
    (hmk : ∀ tr dir, mkdirat tr dir ≠ some EACCES ∧ mkdirat tr dir ≠ some ENOTDIR) :
    ∀ (fuel a : Nat) (curr : Buf) (tr : List Event), curr.length ≤ a →
      (p.drop a).length < fuel →
      create_dirs_loop mkdirat p fuel (strchrFrom (p.drop a) a SLASH) curr tr
        = some (0, tr ++ (slashesFrom (p.drop a) a).map (fun q => Event.mkdirat (p.take q))) := by
  intro fuel
  induction fuel with
  | zero => intro a curr tr _ h; omega
  | succ fuel ih =>
    intro a curr tr hcurr hfuel
    cases hs : strchrFrom (p.drop a) a SLASH with
    | none =>
      simp [create_dirs_loop, strchrFrom_none hs rfl]
    | some q =>
      obtain ⟨h1, h2, h3⟩ := strchrFrom_some hs
      have hq : q < p.length := by
        simp only [List.length_drop] at h2; omega
      have hqmax : q ≤ PATH_MAX := by omega
      have hdrop : curr.drop q = [] := by
        apply List.drop_eq_nil_of_le; omega
      have htake : NUL ∉ p.take q := fun h => hnul (List.mem_of_mem_take h)
      have hread : readCStr (p.take q) = some (p.take q) := by
        apply readCStr_of htake
        simp; omega
      have hrec := ih (q + 1) (p.take q) (tr ++ [Event.mkdirat (p.take q)])
        (by rw [List.length_take]; omega) (by simp only [List.length_drop] at hfuel ⊢; omega)
      have hdd : (p.drop a).drop (q - a + 1) = p.drop (q + 1) := by
        rw [List.drop_drop]; congr 1; omega
      rw [h3, hdd]
      simp only [create_dirs_loop, if_pos hqmax, hdrop, List.append_nil, hread, strchr]
      rw [hrec]
      have := hmk tr (p.take q)
      cases hm : mkdirat tr (p.take q) with
      | none => simp
      | some e =>
        have e1 : e ≠ EACCES := fun h => this.1 (by rw [hm, h])
        have e2 : e ≠ ENOTDIR := fun h => this.2 (by rw [hm, h])
        simp [e1, e2]

theorem slashesFrom_eq_filter (s : List Char) (pos : Nat) :
    slashesFrom s pos
      = (List.range' pos s.length).filter (fun q => decide (s[q - pos]? = some SLASH)) := by
  induction s generalizing pos with
  | nil => rfl
  | cons x xs ih =>
    rw [slashesFrom, List.length_cons, List.range'_succ, List.filter_cons, ih (pos + 1)]
    have hf : (List.range' (pos + 1) xs.length).filter
          (fun q => decide (xs[q - (pos + 1)]? = some SLASH))
        = (List.range' (pos + 1) xs.length).filter
          (fun q => decide ((x :: xs)[q - pos]? = some SLASH)) := by
      apply List.filter_congr
      intro q hq
      rw [List.mem_range'_1] at hq
      have : q - pos = (q - (pos + 1)) + 1 := by omega
      rw [this, List.getElem?_cons_succ]
    rw [hf]
    by_cases hx : x = SLASH
    · simp [hx]
    · simp [hx]

theorem convert_path_spec {filename : Buf} {n : List Char} (hn : readCStr filename = some n) :
    ∃ converted, convert_path filename = some converted ∧
      readCStr converted = some (n.map (fun c => if c = BACKSLASH then SLASH else c)) := by
  obtain ⟨h1, h2, h3⟩ := readCStr_some hn
  refine ⟨n.map (fun c => if c = BACKSLASH then SLASH else c) ++ filename.drop n.length,
    by simp only [convert_path, hn], ?_⟩
  have hmap : NUL ∉ n.map (fun c => if c = BACKSLASH then SLASH else c) := by
    intro h
    rw [List.mem_map] at h
    obtain ⟨c, hc, hcn⟩ := h
    split at hcn
    · exact absurd hcn (by decide)
    · subst hcn; exact h3 hc
  unfold readCStr
  subst h1
  rw [cstr_append_drop filename _ hmap]
  simp only [List.length_map]
  rw [if_pos h2]

theorem create_dirs_spec (mkdirat : List Event → List Char → Option Nat) (p : List Char)
    (hnul : NUL ∉ p) (hlen : p.length < PATH_MAX)
    (hmk : ∀ tr dir, mkdirat tr dir ≠ some EACCES ∧ mkdirat tr dir ≠ some ENOTDIR)
    (tr : List Event) :
    create_dirs mkdirat p tr
      = some (0, tr ++ ((List.range p.length).filter
          (fun q => decide (p[q]? = some SLASH))).map (fun q => Event.mkdirat (p.take q))) := by
  have h := create_dirs_loop_spec mkdirat p hnul hlen hmk (p.length + 1) 0 [] tr
    (by simp) (by simp)
  rw [List.drop_zero] at h
  rw [create_dirs, strchr, List.drop_zero, h, slashesFrom_eq_filter, List.range_eq_range']
  simp

/-- C4 : directory materialisation follows the separators of the name.  For every name `n`
held in a `PATH_MAX` array (so shorter than `PATH_MAX`) and every `mkdirat` that never fails
with `EACCES` or `ENOTDIR`: `convert_path` yields a string `p` of the same length in which
every backslash of `n` is a slash and every other byte is unchanged; `create_dirs` returns 0
and attempts exactly one directory per slash of `p`, from left to right, the one for the
slash at position `q` being the prefix `p[0..q)`; the full path `p` is never attempted. -/
theorem create_dirs_follows_separators (mkdirat : List Event → List Char → Option Nat)
    (filename : Buf) (n : List Char) (hn : readCStr filename = some n)
    (hmk : ∀ tr dir, mkdirat tr dir ≠ some EACCES ∧ mkdirat tr dir ≠ some ENOTDIR) :
    ∃ converted p, convert_path filename = some converted ∧ readCStr converted = some p ∧
      p.length = n.length ∧
      (∀ q : Nat, p[q]? = (n[q]?).map (fun c => if c = BACKSLASH then SLASH else c)) ∧
      create_dirs mkdirat p []
        = some (0, ((List.range p.length).filter (fun q => decide (p[q]? = some SLASH))).map
            (fun q => Event.mkdirat (p.take q))) ∧
      Event.mkdirat p ∉ ((List.range p.length).filter (fun q => decide (p[q]? = some SLASH))).map
            (fun q => Event.mkdirat (p.take q)) := by
  obtain ⟨converted, hc, hr⟩ := convert_path_spec hn
  obtain ⟨_, h2, h3⟩ := readCStr_some hr
  refine ⟨converted, _, hc, hr, by simp, ?_, ?_, ?_⟩
  · intro q; simp
  · simpa using create_dirs_spec mkdirat _ h3 h2 hmk []
  · intro hmem
    rw [List.mem_map] at hmem
    obtain ⟨q, hq, he⟩ := hmem
    rw [List.mem_filter, List.mem_range] at hq
    have hlen := congrArg List.length (Event.mkdirat.inj he)
    rw [List.length_take] at hlen
    omega

/-- The scenario of the spec: the name `dir1\\dir2\\file.bin`, with a `mkdirat` that always
fails with `EEXIST`. -/
theorem create_dirs_follows_separators_witness :
    readCStr "dir1\\dir2\\file.bin".toList = some "dir1\\dir2\\file.bin".toList ∧
    ∃ converted p, convert_path "dir1\\dir2\\file.bin".toList = some converted ∧
      readCStr converted = some p ∧
      p.length = "dir1\\dir2\\file.bin".toList.length ∧
      (∀ q : Nat, p[q]? = (("dir1\\dir2\\file.bin".toList)[q]?).map
        (fun c => if c = BACKSLASH then SLASH else c)) ∧
      create_dirs (fun _ _ => some 17) p []
        = some (0, ((List.range p.length).filter (fun q => decide (p[q]? = some SLASH))).map
            (fun q => Event.mkdirat (p.take q))) ∧
      Event.mkdirat p ∉ ((List.range p.length).filter (fun q => decide (p[q]? = some SLASH))).map
            (fun q => Event.mkdirat (p.take q)) :=
  ⟨by decide, create_dirs_follows_separators (fun _ _ => some 17) _ _ (by decide)
    (fun _ _ =>
      ⟨(by decide : some 17 ≠ some EACCES), (by decide : some 17 ≠ some ENOTDIR)⟩)⟩


/-- The attempts for `dir1\\dir2\\file.bin`: `dir1`, then `dir1/dir2`; the file itself is
opened at `dir1/dir2/file.bin`. -/
theorem create_dirs_scenario :
    convert_path "dir1\\dir2\\file.bin".toList = some "dir1/dir2/file.bin".toList ∧
    create_dirs (fun _ _ => some 17) "dir1/dir2/file.bin".toList []
      = some (0, [Event.mkdirat "dir1".toList, Event.mkdirat "dir1/dir2".toList]) ∧
    (mpq_extract__extract
        { plainWorld 2 with
          listfile := some (1, "dir1\\dir2\\file.bin".toList), heap_after := [NUL] } 0
        listfile_init).map (fun r => r.2.2)
      = some [Event.mkdirat "dir1".toList, Event.mkdirat "dir1/dir2".toList,
          Event.fopen "dir1/dir2/file.bin".toList, Event.file_size_unpacked 0,
          Event.file_read 0, Event.fwrite 0, Event.fclose, Event.destroy_listfile,
          Event.archive_close] := by
  decide

theorem specLines_examples :
    specLines "a/b.txt\nc.txt".toList = ["a/b.txt".toList, "c.txt".toList] ∧
    specLines "\r\na\r\n\r\nb\n".toList = ["a".toList, "b".toList] := by
  decide

theorem splitOnP_eq_takeWhile (p : Char → Bool) (s : List Char) :
    s.splitOnP p = s.takeWhile (fun x => !p x) ::
      (match s.dropWhile (fun x => !p x) with
        | [] => []
        | _ :: r => r.splitOnP p) := by
  induction s with
  | nil => rfl
  | cons c t ih =>
    rw [List.splitOnP_cons]
    by_cases hc : p c = true
    · simp [hc]
    · simp only [hc, if_false, Bool.false_eq_true]
      rw [ih]
      simp [hc]

theorem specLines_dropWhile (s : List Char) :
    specLines (s.dropWhile isDelim) = specLines s := by
  induction s with
  | nil => rfl
  | cons c t ih =>
    by_cases hc : isDelim c = true
    · rw [List.dropWhile_cons_of_pos hc, ih]
      simp [specLines, List.splitOnP_cons, hc]
    · rw [List.dropWhile_cons_of_neg hc]

theorem specLines_cons_of_not_delim (c : Char) (t : List Char) (hc : isDelim c = false) :
    specLines (c :: t) = (c :: t).takeWhile (fun x => !isDelim x) ::
      specLines (((c :: t).dropWhile (fun x => !isDelim x)).drop 1) := by
  have h := splitOnP_eq_takeWhile isDelim (c :: t)
  unfold specLines
  rw [h]
  have hne : ((c :: t).takeWhile (fun x => !isDelim x)).isEmpty = false := by
    simp [hc]
  rw [List.filter_cons]
  simp only [hne, Bool.not_false, if_true]
  congr 1
  cases hd : (c :: t).dropWhile (fun x => !isDelim x) with
  | nil => simp
  | cons x r => simp

theorem strtokText_spec (s : List Char) :
    (strtokText s).1 = (specLines s).head? ∧
      specLines (strtokText s).2 = (specLines s).tail := by
  rw [← specLines_dropWhile s]
  unfold strtokText
  cases hd : s.dropWhile isDelim with
  | nil => simp [specLines]
  | cons c t =>
    have hc : isDelim c = false := by
      have := List.head?_dropWhile_not isDelim s
      rw [hd] at this
      simpa using this
    simp only
    rw [specLines_cons_of_not_delim c t hc]
    simp
theorem isDelim_NUL : isDelim NUL = false := by decide

theorem not_isDelim_of_eq_NUL {c : Char} (h : c = NUL) : isDelim c = false := by
  subst h; exact isDelim_NUL

/-- Skipping delimiters in memory goes through the text and stops at the NUL. -/
theorem dropWhile_isDelim_append (text tail : List Char) :
    (text ++ NUL :: tail).dropWhile isDelim = text.dropWhile isDelim ++ NUL :: tail ∧
    ((text ++ NUL :: tail).takeWhile isDelim).length = (text.takeWhile isDelim).length := by
  induction text with
  | nil => simp [isDelim_NUL]
  | cons c t ih =>
    by_cases hc : isDelim c = true
    · simp [hc, ih]
    · simp [hc]

/-- Taking a token in memory goes through the text and stops at the NUL. -/
theorem takeWhile_token_append (text tail : List Char) (hnul : NUL ∉ text) :
    (text ++ NUL :: tail).takeWhile (fun x => !isDelim x && x != NUL)
        = text.takeWhile (fun x => !isDelim x) ∧
    (text ++ NUL :: tail).dropWhile (fun x => !isDelim x && x != NUL)
        = text.dropWhile (fun x => !isDelim x) ++ NUL :: tail := by
  induction text with
  | nil => simp
  | cons c t ih =>
    have hc : c ≠ NUL := fun h => hnul (h ▸ List.mem_cons_self _ _)
    have ht : NUL ∉ t := fun h => hnul (List.mem_cons_of_mem _ h)
    obtain ⟨ih1, ih2⟩ := ih ht
    by_cases hd : isDelim c = true
    · simp [hd]
    · simp [List.takeWhile_cons, List.dropWhile_cons, hd, hc, ih1, ih2]

theorem mem_split_cstr {s : List Char} (h : NUL ∈ s) :
    ∃ tail, s = cstr s ++ NUL :: tail := by
  induction s with
  | nil => cases h
  | cons c t ih =>
    by_cases hc : c = NUL
    · subst hc
      exact ⟨t, by simp [cstr]⟩
    · have ht : NUL ∈ t := by
        rcases List.mem_cons.mp h with h1 | h1
        · exact absurd h1.symm hc
        · exact h1
      obtain ⟨tail, htail⟩ := ih ht
      refine ⟨tail, ?_⟩
      have hcs : cstr (c :: t) = c :: cstr t := by
        simp [cstr, List.takeWhile_cons, hc]
      rw [hcs, List.cons_append, ← htail]

theorem cstr_append_nul (text tail : List Char) (h : NUL ∉ text) :
    cstr (text ++ NUL :: tail) = text := by
  unfold cstr
  rw [List.takeWhile_append_of_pos]
  · simp
  · intro a ha
    simp only [bne_iff_ne, ne_eq]
    rintro rfl
    exact h ha
theorem length_takeWhile_add_dropWhile (p : Char → Bool) (l : List Char) :
    (l.takeWhile p).length + (l.dropWhile p).length = l.length := by
  rw [← List.length_append, List.takeWhile_append_dropWhile]

/-- One `strtok` call on a text that lies inside the block and is followed by a NUL: the
token is the first line of the text, and what is left is again such a text. -/
theorem strtok_on_text (text tail : List Char) (room : Nat) (hnul : NUL ∉ text)
    (hroom : text.length ≤ room) :
    ∃ s2 room2, strtok (text ++ NUL :: tail) room = some ((strtokText text).1, s2, room2) ∧
      NUL ∈ s2 ∧ cstr s2 = (strtokText text).2 ∧ (cstr s2).length ≤ room2 := by
  obtain ⟨hA1, hA2⟩ := dropWhile_isDelim_append text tail
  have hlen1 := length_takeWhile_add_dropWhile isDelim text
  unfold strtok strtokText
  simp only [hA1, hA2]
  cases hd : text.dropWhile isDelim with
  | nil =>
    refine ⟨NUL :: tail, room - (text.takeWhile isDelim).length, ?_, by simp, ?_, ?_⟩
    · simp
    · simp [cstr]
    · simp [cstr]
  | cons c t =>
    have hsub : ∀ x ∈ c :: t, x ∈ text := by
      intro x hx
      rw [← hd] at hx
      exact (List.dropWhile_sublist _).subset hx
    have hc : c ≠ NUL := fun h => hnul (h ▸ hsub c (List.mem_cons_self _ _))
    have hnul2 : NUL ∉ c :: t := fun h => hnul (hsub NUL h)
    obtain ⟨hB1, hB2⟩ := takeWhile_token_append (c :: t) tail hnul2
    have hlen2 := length_takeWhile_add_dropWhile (fun x => !isDelim x) (c :: t)
    rw [hd] at hlen1
    simp only [List.cons_append] at hB1 hB2 ⊢
    simp only [hc, if_false, hB1, hB2]
    cases hd2 : (c :: t).dropWhile (fun x => !isDelim x) with
    | nil =>
      refine ⟨NUL :: tail, room - ((text.takeWhile isDelim).length
          + ((c :: t).takeWhile (fun x => !isDelim x)).length), ?_, by simp, ?_, ?_⟩
      · simp
      · simp [cstr]
      · simp [cstr]
    | cons x t2 =>
      have hsub2 : ∀ y ∈ x :: t2, y ∈ c :: t := by
        intro y hy
        rw [← hd2] at hy
        exact (List.dropWhile_sublist _).subset hy
      have hx : x ≠ NUL := fun h => hnul2 (h ▸ hsub2 x (List.mem_cons_self _ _))
      have hnul3 : NUL ∉ t2 := fun h => hnul2 (hsub2 NUL (List.mem_cons_of_mem _ h))
      rw [hd2] at hlen2
      simp only [List.length_cons] at hlen1 hlen2
      have hw : (text.takeWhile isDelim).length
          + ((c :: t).takeWhile (fun x => !isDelim x)).length < room := by
        omega
      refine ⟨t2 ++ NUL :: tail, room - ((text.takeWhile isDelim).length
          + ((c :: t).takeWhile (fun x => !isDelim x)).length + 1), ?_, by simp, ?_, ?_⟩
      · simp only [List.cons_append, hx, if_false, if_pos hw]
      · simp [cstr_append_nul t2 tail hnul3]
      · rw [cstr_append_nul t2 tail hnul3]
        omega

/-- The same for memory that holds a NUL, in terms of its text `cstr s`. -/
theorem strtok_of_nul (s : List Char) (room : Nat) (hnul : NUL ∈ s)
    (hroom : (cstr s).length ≤ room) :
    ∃ s2 room2, strtok s room = some ((strtokText (cstr s)).1, s2, room2) ∧
      NUL ∈ s2 ∧ cstr s2 = (strtokText (cstr s)).2 ∧ (cstr s2).length ≤ room2 := by
  obtain ⟨tail, htail⟩ := mem_split_cstr hnul
  have h := strtok_on_text (cstr s) tail room (nul_not_mem_cstr s) hroom
  rw [← htail] at h
  exact h
theorem nonEmptyName_newEntry {t : List Char} (h : NonEmptyName t) :
    NonEmptyName (newEntry t) := by
  obtain ⟨c, rest, hcr, hc⟩ := h
  subst hcr
  refine ⟨c, rest.take (PATH_MAX - 1), ?_, hc⟩
  unfold newEntry
  split
  · rw [List.take_length, List.take_of_length_le]
    simp only [List.length_cons] at *
    have : PATH_MAX = 4096 := rfl
    omega
  · rfl

theorem nonEmptyName_label : NonEmptyName (newEntry listfile_txt) :=
  ⟨'l', "istfile.txt".toList, by decide, by decide⟩

/-- A token `strtok` returns starts with a byte that is neither a delimiter nor NUL. -/
theorem strtok_token_nonempty {s : List Char} {room : Nat} {tok s2 : List Char} {room2 : Nat}
    (h : strtok s room = some (some tok, s2, room2)) : NonEmptyName tok := by
  unfold strtok at h
  cases hd : s.dropWhile isDelim with
  | nil => simp [hd] at h
  | cons c t =>
    simp only [hd] at h
    by_cases hc : c = NUL
    · simp [hc] at h
    · have hnd : isDelim c = false := by
        have := List.head?_dropWhile_not isDelim s
        rw [hd] at this
        simpa using this
      have htok : (c :: t).takeWhile (fun x => !isDelim x && x != NUL)
          = c :: t.takeWhile (fun x => !isDelim x && x != NUL) := by
        simp [List.takeWhile_cons, hnd, hc]
      simp only [hc, if_false] at h
      cases hd2 : (c :: t).dropWhile (fun x => !isDelim x && x != NUL) with
      | nil => simp [hd2] at h
      | cons d t2 =>
        simp only [hd2] at h
        have key : tok = (c :: t).takeWhile (fun x => !isDelim x && x != NUL) := by
          split at h
          · cases h; rfl
          · split at h
            · cases h; rfl
            · cases h
        rw [key, htok]
        exact ⟨c, _, rfl, hc⟩

/-- The loop of `get_listfile` never uses up its fuel. -/
theorem get_listfile_loop_fuel (total k : Nat) :
    ∀ (fuel : Nat) (b : Build), total - b.i < fuel →
      get_listfile_loop total k fuel b ≠ Ran.out_of_fuel := by
  intro fuel
  induction fuel with
  | zero => intro b h; omega
  | succ fuel ih =>
    intro b hf
    obtain ⟨i, file, rest, room, entries, stores⟩ := b
    simp only at hf
    unfold get_listfile_loop
    by_cases hlt : i < total
    · simp only [if_pos hlt]
      by_cases hk : i = k
      · simp only [hk, if_true, Build.store]
        cases file with
        | none => exact fun h => by cases h
        | some f =>
          simp only
          by_cases hk1 : k + 1 < total
          · simp only [if_pos hk1]
            cases hst : strtok rest room with
            | none => exact fun h => by cases h
            | some r =>
              obtain ⟨file2, rest2, room2⟩ := r
              simp only
              apply ih
              simp only
              omega
          · simp only [if_neg hk1]
            exact fun h => by cases h
      · simp only [hk, if_false, Build.store]
        cases file with
        | none => exact fun h => by cases h
        | some f =>
          simp only [if_pos hlt]
          cases hst : strtok rest room with
          | none => exact fun h => by cases h
          | some r =>
            obtain ⟨file2, rest2, room2⟩ := r
            simp only
            apply ih
            simp only
            omega
    · simp only [if_neg hlt]
      exact fun h => by cases h

/-- Every run of the loop of `get_listfile` that completes keeps the
names of the table non-empty. -/
theorem get_listfile_loop_names (total k : Nat) :
    ∀ (fuel : Nat) (b b2 : Build), NamesInv total b →
      get_listfile_loop total k fuel b = Ran.done b2 → NamesInv total b2 := by
  intro fuel
  induction fuel with
  | zero => intro b b2 _ h; cases h
  | succ fuel ih =>
    intro b b2 hinv h
    obtain ⟨i, file, rest, room, entries, stores⟩ := b
    obtain ⟨hlen, hfile, hslots⟩ := hinv
    simp only at hlen hfile hslots
    unfold get_listfile_loop at h
    by_cases hlt : i < total
    · simp only [if_pos hlt] at h
      have hset : ∀ (es : List (Option Buf)) (n : Nat) (v : Buf),
          (∀ e, some e ∈ es → NonEmptyName e) → NonEmptyName v →
          ∀ e, some e ∈ es.set n (some v) → NonEmptyName e := by
        intro es n v hes hv e he
        rcases List.mem_or_eq_of_mem_set he with h1 | h1
        · exact hes e h1
        · cases h1; exact hv
      by_cases hk : i = k
      · simp only [hk, if_true, Build.store] at h
        cases file with
        | none =>
          simp only at h
          cases h
          exact ⟨by simpa using hlen, fun f hf => (by cases hf),
            hset entries k _ hslots nonEmptyName_label⟩
        | some f =>
          simp only at h
          split at h
          · split at h
            · cases h
            · rename_i file2 rest2 room2 hst
              refine ih _ b2 ⟨by simpa using hlen, ?_, ?_⟩ h
              · intro f2 hf2
                simp only at hf2
                subst hf2
                exact strtok_token_nonempty hst
              · simp only
                exact hset _ _ _ (hset entries k _ hslots nonEmptyName_label)
                  (nonEmptyName_newEntry (hfile f rfl))
          · cases h
      · simp only [hk, if_false, Build.store] at h
        cases file with
        | none =>
          simp only at h
          cases h
          exact ⟨hlen, fun f hf => (by cases hf), hslots⟩
        | some f =>
          simp only [if_pos hlt] at h
          split at h
          · cases h
          · rename_i file2 rest2 room2 hst
            refine ih _ b2 ⟨by simpa using hlen, ?_, ?_⟩ h
            · intro f2 hf2
              simp only at hf2
              subst hf2
              exact strtok_token_nonempty hst
            · simp only
              exact hset entries i _ hslots (nonEmptyName_newEntry (hfile f rfl))
    · simp only [if_neg hlt] at h
      cases h
      exact ⟨hlen, hfile, hslots⟩
theorem get_listfile_none (w : World) (total : Nat) (prev : listfile_s)
    (hw : w.listfile = none) : get_listfile w total prev = Ran.done ⟨prev, [], false⟩ := by
  simp only [get_listfile, hw]

/-- The model of `get_listfile` never stops for lack of fuel: every run completes
(`Ran.done`) or ends without a result (`Ran.store_past_table`, `Ran.undefined`). -/
theorem get_listfile_fuel (w : World) (total : Nat) (prev : listfile_s) :
    get_listfile w total prev ≠ Ran.out_of_fuel := by
  unfold get_listfile
  cases hw : w.listfile with
  | none => exact fun h => by cases h
  | some kc =>
    obtain ⟨k, list⟩ := kc
    simp only
    cases hst : strtok (list ++ w.heap_after) list.length with
    | none => exact fun h => by cases h
    | some r =>
      obtain ⟨file, rest, room⟩ := r
      simp only
      have hfuel := get_listfile_loop_fuel total k (total + 1)
        ⟨0, file, rest, room, List.replicate total none, []⟩ (by simp)
      cases hl : get_listfile_loop total k (total + 1)
          ⟨0, file, rest, room, List.replicate total none, []⟩ with
      | done b =>
        simp only
        cases hg : b.entries[k]? with
        | none => exact fun h => by cases h
        | some x =>
          cases x with
          | none => exact fun h => by cases h
          | some e => exact fun h => by cases h
      | store_past_table stores => exact fun h => by cases h
      | undefined => exact fun h => by cases h
      | out_of_fuel => exact absurd hl hfuel

/-- What every run of `get_listfile` that completes leaves behind: with
no listing the global as it was; with a listing a loaded table of `total` slots whose names
all start with a byte other than NUL. -/
theorem get_listfile_names (w : World) (total : Nat) (prev : listfile_s) (built : Built)
    (h : get_listfile w total prev = Ran.done built) :
    (w.listfile = none → built.listfile = prev) ∧
    (w.listfile ≠ none → built.listfile.is_loaded = true ∧
      built.listfile.entries.length = total ∧
      ∀ e, some e ∈ built.listfile.entries → NonEmptyName e) := by
  cases hw : w.listfile with
  | none =>
    rw [get_listfile_none w total prev hw] at h
    cases h
    exact ⟨fun _ => rfl, fun hne => absurd rfl hne⟩
  | some kc =>
    obtain ⟨k, list⟩ := kc
    refine ⟨fun hn => (by cases hn), fun _ => ?_⟩
    simp only [get_listfile, hw] at h
    cases hst : strtok (list ++ w.heap_after) list.length with
    | none => simp [hst] at h
    | some r =>
      obtain ⟨file, rest, room⟩ := r
      simp only [hst] at h
      cases hl : get_listfile_loop total k (total + 1)
          ⟨0, file, rest, room, List.replicate total none, []⟩ with
      | done b =>
        have hinv0 : NamesInv total ⟨0, file, rest, room, List.replicate total none, []⟩ := by
          refine ⟨by simp, ?_, ?_⟩
          · intro f hf
            simp only at hf
            subst hf
            exact strtok_token_nonempty hst
          · intro e he
            simp only [List.mem_replicate] at he
            cases he.2
        obtain ⟨hlen, _, hslots⟩ := get_listfile_loop_names total k _ _ b hinv0 hl
        simp only [hl] at h
        cases hg : b.entries[k]? with
        | none => simp [hg] at h
        | some x =>
          cases x with
          | none =>
            simp only [hg] at h
            cases h
            refine ⟨rfl, by simpa [Build.store] using hlen, ?_⟩
            intro e he
            simp only [Build.store] at he
            rcases List.mem_or_eq_of_mem_set he with h1 | h1
            · exact hslots e h1
            · cases h1; exact nonEmptyName_label
          | some e0 =>
            simp only [hg] at h
            cases h
            exact ⟨rfl, hlen, hslots⟩
      | store_past_table stores => simp [hl] at h
      | undefined => simp [hl] at h
      | out_of_fuel => simp [hl] at h

theorem snprintf_file_head (i : Nat) :
    ∃ r rest, snprintf_file PATH_MAX i = (r, 'f' :: rest) ∧ ¬ r < 0 := by
  refine ⟨_, _, rfl, ?_⟩
  simp
  omega

/-- The name of every index inside the table is resolved, whatever completed run of
`get_listfile` built the table. -/
theorem file_name_defined_of_built (w : World) (prev : listfile_s) (total i : Nat)
    (hprev : w.listfile = none → prev.is_loaded = false) (hi : i < total) :
    ∀ built, get_listfile w total prev = Ran.done built →
      ∃ r c rest, libmpq__file_name built.listfile i PATH_MAX = some (r, c :: rest) ∧
        c ≠ NUL := by
  intro built hbuilt
  obtain ⟨hnone, hsome⟩ := get_listfile_names w total prev built hbuilt
  obtain ⟨r0, rest0, hsn, hr0⟩ := snprintf_file_head i
  have hplace : (let r := snprintf_file PATH_MAX i
      if r.1 < 0 then some (LIBMPQ_ERROR_FORMAT, r.2) else some r)
        = some (r0, 'f' :: rest0) := by
    simp only [hsn, if_neg hr0]
  cases hw : w.listfile with
  | none =>
    refine ⟨r0, 'f', rest0, ?_, by decide⟩
    rw [hnone hw]
    simp only [libmpq__file_name, hprev hw, Bool.false_eq_true, if_false]
    exact hplace
  | some kc =>
    obtain ⟨hloaded, hlen, hslots⟩ := hsome (by rw [hw]; exact fun h => by cases h)
    have hlt : i < built.listfile.entries.length := by omega
    have hget : built.listfile.entries.get? i = some (built.listfile.entries[i]) := by
      rw [List.get?_eq_getElem?, List.getElem?_eq_getElem hlt]
    cases hx : built.listfile.entries[i] with
    | none =>
      refine ⟨r0, 'f', rest0, ?_, by decide⟩
      simp only [libmpq__file_name, hloaded, if_true, hget, hx]
      exact hplace
    | some e =>
      have hmem : some e ∈ built.listfile.entries := by
        rw [← hx]; exact List.getElem_mem _
      obtain ⟨c, rest, hcr, hc⟩ := hslots e hmem
      refine ⟨PATH_MAX, c, rest, ?_, hc⟩
      simp only [libmpq__file_name, hloaded, if_true, hget, hx, hcr]

theorem expectedEntry_none_of_le {T : List (List Char)} {k j c : Nat} (hjk : j ≠ k)
    (hT : T.length ≤ c) (hc : c ≤ (if j < k then j else j - 1)) :
    expectedEntry T k j = none := by
  unfold expectedEntry
  rw [if_neg hjk, List.getElem?_eq_none (by omega)]
  rfl

/-- The loop of `get_listfile` on a text that lies inside the block and is followed by a
NUL, when the line after the label (if the label goes to the last slot) does not exist: the
loop completes and leaves the lines in their slots. -/
theorem get_listfile_loop_spec (total k : Nat) (T : List (List Char))
    (hsafe : k + 1 = total → T.length ≤ k) :
    ∀ (fuel : Nat) (b : Build), LoopInv total k T b → total - b.i < fuel →
      ∃ b2, get_listfile_loop total k fuel b = Ran.done b2 ∧ LoopPost total k T b2 := by
  intro fuel
  induction fuel with
  | zero => intro b _ hf; omega
  | succ fuel ih =>
    intro b hinv hf
    obtain ⟨i, file, rest, room, entries, stores⟩ := b
    obtain ⟨hlen, hfile, hnul, hroom, hrest, hslots, hstores⟩ := hinv
    simp only at hlen hfile hnul hroom hrest hslots hstores hf
    obtain ⟨s2, room2, hst, hnul2, hcs2, hroom2⟩ := strtok_of_nul rest room hnul hroom
    have hfile2 : (strtokText (cstr rest)).1 = T[consumed k i + 1]? := by
      rw [(strtokText_spec (cstr rest)).1, hrest, List.head?_drop]
    have hrest2 : specLines (cstr s2) = T.drop (consumed k i + 1 + 1) := by
      rw [hcs2, (strtokText_spec (cstr rest)).2, hrest, List.tail_drop]
    unfold get_listfile_loop
    by_cases hlt : i < total
    · simp only [if_pos hlt]
      by_cases hk : i = k
      · subst hk
        have hcons : consumed i i = i := by simp [consumed]
        rw [hcons] at hfile hrest hfile2 hrest2
        simp only [if_true, Build.store]
        cases file with
        | none =>
          refine ⟨_, rfl, ⟨by simpa using hlen, ?_, ?_, ?_⟩⟩
          · intro j hj hji
            simp only
            rw [List.getElem?_set_ne (Ne.symm hji), hslots j hj]
            by_cases hlt2 : j < i
            · rw [if_pos hlt2]
            · rw [if_neg hlt2]
              rw [expectedEntry_none_of_le hji (c := i)]
              · exact List.getElem?_eq_none_iff.mp hfile.symm
              · rw [if_neg hlt2]; omega
          · intro _
            right
            simp only
            rw [List.getElem?_set_self (by omega)]
          · intro s hs
            simp only [List.mem_append, List.mem_singleton] at hs
            rcases hs with hs | hs
            · exact hstores s hs
            · omega
        | some f =>
          simp only
          have hTi : i < T.length := by
            have := hfile.symm
            rw [List.getElem?_eq_some_iff] at this
            exact this.1
          have hi1 : i + 1 < total := by
            by_cases h : i + 1 = total
            · have := hsafe h; omega
            · omega
          simp only [if_pos hi1, hst]
          apply ih
          · refine ⟨by simpa using hlen, ?_, hnul2, hroom2, ?_, ?_, ?_⟩
            · simp only
              rw [hfile2]
              congr 1
              unfold consumed; split <;> omega
            · simp only
              rw [hrest2]
              congr 1
              unfold consumed; split <;> omega
            · intro j hj
              simp only
              by_cases hj1 : j = i + 1
              · subst hj1
                rw [List.getElem?_set_self (by simp; omega)]
                simp [expectedEntry, ← hfile]
              · rw [List.getElem?_set_ne (Ne.symm hj1)]
                by_cases hj2 : j = i
                · subst hj2
                  rw [List.getElem?_set_self (by omega), if_pos (by omega)]
                  simp [expectedEntry]
                · rw [List.getElem?_set_ne (Ne.symm hj2), hslots j hj]
                  by_cases hlt2 : j < i
                  · rw [if_pos hlt2, if_pos (by omega)]
                  · rw [if_neg hlt2, if_neg (by omega)]
            · intro s hs
              simp only [List.mem_append, List.mem_singleton] at hs
              rcases hs with (hs | hs) | hs
              · exact hstores s hs
              · omega
              · omega
          · simp only; omega
      · simp only [if_neg hk]
        have hidx : (if i < k then i else i - 1) = consumed k i := by
          unfold consumed
          by_cases h : i < k
          · rw [if_pos h, if_pos (by omega)]
          · rw [if_neg h, if_neg (by omega)]
        cases file with
        | none =>
          refine ⟨_, rfl, ⟨hlen, ?_, ?_, hstores⟩⟩
          · intro j hj hjk
            simp only
            rw [hslots j hj]
            by_cases hlt2 : j < i
            · rw [if_pos hlt2]
            · rw [if_neg hlt2]
              rw [expectedEntry_none_of_le hjk (c := consumed k i)]
              · exact List.getElem?_eq_none_iff.mp hfile.symm
              · unfold consumed
                split <;> split <;> omega
          · intro hkt
            simp only
            rw [hslots k hkt]
            by_cases hlt2 : k < i
            · right; rw [if_pos hlt2]; simp [expectedEntry]
            · left; rw [if_neg hlt2]
        | some f =>
          simp only [Build.store, if_pos hlt, hst]
          apply ih
          · refine ⟨by simpa using hlen, ?_, hnul2, hroom2, ?_, ?_, ?_⟩
            · simp only
              rw [hfile2]
              congr 1
              unfold consumed; split <;> split <;> omega
            · simp only
              rw [hrest2]
              congr 1
              unfold consumed; split <;> split <;> omega
            · intro j hj
              simp only
              by_cases hj1 : j = i
              · subst hj1
                rw [List.getElem?_set_self (by omega), if_pos (by omega)]
                unfold expectedEntry
                rw [if_neg hk, hidx, ← hfile]
                rfl
              · rw [List.getElem?_set_ne (Ne.symm hj1), hslots j hj]
                by_cases hlt2 : j < i
                · rw [if_pos hlt2, if_pos (by omega)]
                · rw [if_neg hlt2, if_neg (by omega)]
            · intro s hs
              simp only [List.mem_append, List.mem_singleton] at hs
              rcases hs with hs | hs
              · exact hstores s hs
              · omega
          · simp only; omega
    · simp only [if_neg hlt]
      refine ⟨_, rfl, ⟨hlen, ?_, ?_, hstores⟩⟩
      · intro j hj _
        simp only
        rw [hslots j hj, if_pos (by omega)]
      · intro hkt
        right
        simp only
        rw [hslots k hkt, if_pos (by omega)]
        simp [expectedEntry]
theorem newEntry_eq_take (l : List Char) : newEntry l = l.take PATH_MAX := by
  unfold newEntry
  split
  · rw [List.take_length, List.take_of_length_le (by omega)]
  · rfl

theorem newEntry_listfile_txt : newEntry listfile_txt = listfile_txt := by decide

/-- A run of `get_listfile` whose text - the bytes `strtok` reads up to the first NUL - lies
inside the block, with the listing at entry `k < total` and, when `k` is the last slot, at
most `k` lines: it completes, every assignment is to a slot of the table,
and slot `j` holds what the listing rule describes. -/
theorem get_listfile_spec (w : World) (total : Nat) (prev : listfile_s) (k : Nat)
    (content : List Char) (hw : w.listfile = some (k, content))
    (hnul : NUL ∈ content ++ w.heap_after)
    (hin : (cstr (content ++ w.heap_after)).length ≤ content.length)
    (hk : k < total)
    (hsafe : k + 1 = total → (specLines (cstr (content ++ w.heap_after))).length ≤ k) :
    ∃ built, get_listfile w total prev = Ran.done built ∧
      built.listfile.is_loaded = true ∧ built.listfile.num_entries = total ∧
      built.listfile.entries.length = total ∧
      (∀ j, j < total → built.listfile.entries[j]?
        = some (expectedEntry (specLines (cstr (content ++ w.heap_after))) k j)) ∧
      (∀ s ∈ built.stores, s < total) := by
  obtain ⟨s2, room2, hst, hnul2, hcs2, hroom2⟩ :=
    strtok_of_nul (content ++ w.heap_after) content.length hnul hin
  have hinv : LoopInv total k (specLines (cstr (content ++ w.heap_after)))
      ⟨0, (strtokText (cstr (content ++ w.heap_after))).1, s2, room2,
        List.replicate total none, []⟩ := by
    refine ⟨by simp, ?_, hnul2, hroom2, ?_, ?_, by simp⟩
    · simp only [consumed, Nat.zero_le, if_true]
      rw [(strtokText_spec _).1, List.head?_eq_getElem?]
    · simp only [consumed, Nat.zero_le, if_true]
      rw [hcs2, (strtokText_spec _).2]
      simp
    · intro j hj
      simp [List.getElem?_replicate, hj]
  obtain ⟨b, hb, hpost⟩ :=
    get_listfile_loop_spec total k _ hsafe (total + 1) _ hinv (by simp)
  obtain ⟨hlen, hslots, hown, hstores⟩ := hpost
  have hexp : expectedEntry (specLines (cstr (content ++ w.heap_after))) k k
      = some (newEntry listfile_txt) := by
    simp [expectedEntry]
  rcases hown hk with h | h
  · refine ⟨⟨⟨total, (b.store k (newEntry listfile_txt)).entries, true⟩,
      (b.store k (newEntry listfile_txt)).stores, b.i != total⟩, ?_, rfl, rfl, ?_, ?_, ?_⟩
    · simp only [get_listfile, hw, hst, hb, h]
    · simpa [Build.store] using hlen
    · intro j hj
      simp only [Build.store]
      by_cases hjk : j = k
      · subst hjk
        rw [List.getElem?_set_self (by omega), hexp]
      · rw [List.getElem?_set_ne (Ne.symm hjk), hslots j hj hjk]
    · intro s hs
      simp only [Build.store, List.mem_append, List.mem_singleton] at hs
      rcases hs with hs | hs
      · exact hstores s hs
      · omega
  · refine ⟨⟨⟨total, b.entries, true⟩, b.stores, b.i != total⟩, ?_, rfl, rfl, hlen, ?_,
      hstores⟩
    · simp only [get_listfile, hw, hst, hb, h]
    · intro j hj
      simp only
      by_cases hjk : j = k
      · subst hjk
        rw [h, hexp]
      · exact hslots j hj hjk

theorem mem_of_mem_splitOnP (p : Char → Bool) (s : List Char) :
    ∀ l ∈ s.splitOnP p, ∀ c ∈ l, c ∈ s := by
  induction s with
  | nil =>
    intro l hl c hc
    rw [List.splitOnP_nil, List.mem_singleton] at hl
    subst hl
    exact hc
  | cons x xs ih =>
    intro l hl c hc
    rw [List.splitOnP_cons] at hl
    split at hl
    · rcases List.mem_cons.mp hl with h | h
      · subst h; cases hc
      · exact List.mem_cons_of_mem _ (ih l h c hc)
    · cases hsp : xs.splitOnP p with
      | nil => exact absurd hsp (List.splitOnP_ne_nil _ _)
      | cons hd tl =>
        rw [hsp] at hl ih
        simp only [List.modifyHead_cons] at hl
        rcases List.mem_cons.mp hl with h | h
        · subst h
          rcases List.mem_cons.mp hc with h2 | h2
          · subst h2; exact List.mem_cons_self _ _
          · exact List.mem_cons_of_mem _ (ih hd (List.mem_cons_self _ _) c h2)
        · exact List.mem_cons_of_mem _ (ih l (List.mem_cons_of_mem _ h) c hc)

theorem mem_specLines {s t : List Char} (h : t ∈ specLines s) :
    ∃ c rest, t = c :: rest ∧ c ∈ s := by
  unfold specLines at h
  rw [List.mem_filter] at h
  obtain ⟨h1, h2⟩ := h
  cases t with
  | nil => simp at h2
  | cons c rest =>
    exact ⟨c, rest, rfl, mem_of_mem_splitOnP _ _ _ h1 c (List.mem_cons_self _ _)⟩

/-- C1 : `get_listfile` assigns the lines of the listing to the slots in order and skips the
listing's own slot.  For a table of `total >= 1` slots, a listing at entry `k < total`, a
listing content without NUL byte that has at most `total - 1` lines, and the byte that
follows the listing block in memory being NUL: `get_listfile` completes,
the table is loaded, slot `k` holds `listfile.txt`, every other slot `i` holds line `i` (below
`k`) or line `i - 1` (above `k`) cut to `PATH_MAX` bytes, and is a null pointer when that line
does not exist; every assignment is to a slot of the table; with exactly `total - 1` lines no
slot is a null pointer. -/
theorem get_listfile_assigns_lines (w : World) (prev : listfile_s) (total k : Nat)
    (content tail : List Char) (hw : w.listfile = some (k, content))
    (hafter : w.heap_after = NUL :: tail) (htotal : 1 ≤ total)
    (hk : k < total) (hnul : NUL ∉ content)
    (hm : (specLines content).length ≤ total - 1) :
    ∃ built, get_listfile w total prev = Ran.done built ∧
      built.listfile.is_loaded = true ∧
      built.listfile.entries.length = total ∧
      built.listfile.entries[k]? = some (some listfile_txt) ∧
      (∀ i, i < total → i ≠ k →
        built.listfile.entries[i]?
          = some (((specLines content)[if i < k then i else i - 1]?).map
              (fun l => l.take PATH_MAX))) ∧
      (∀ s ∈ built.stores, s < total) ∧
      ((specLines content).length = total - 1 →
        ∀ i, i < total → ∃ e, built.listfile.entries[i]? = some (some e)) := by
  have htext : cstr (content ++ w.heap_after) = content := by
    rw [hafter]; exact cstr_append_nul content tail hnul
  obtain ⟨built, hb, hloaded, _, hlen, hslots, hstores⟩ :=
    get_listfile_spec w total prev k content hw (by rw [hafter]; simp)
      (by rw [htext]) hk (by rw [htext]; omega)
  rw [htext] at hslots
  have hother : ∀ i, i < total → i ≠ k →
      built.listfile.entries[i]?
        = some (((specLines content)[if i < k then i else i - 1]?).map
            (fun l => l.take PATH_MAX)) := by
    intro i hi hik
    rw [hslots i hi]
    unfold expectedEntry
    rw [if_neg hik]
    congr 1
    cases (specLines content)[if i < k then i else i - 1]? with
    | none => rfl
    | some l => simp [newEntry_eq_take]
  have hown : built.listfile.entries[k]? = some (some listfile_txt) := by
    rw [hslots k hk]
    simp [expectedEntry, newEntry_listfile_txt]
  refine ⟨built, hb, hloaded, hlen, hown, hother, hstores, ?_⟩
  intro hfull i hi
  by_cases hik : i = k
  · subst hik; exact ⟨_, hown⟩
  · rw [hother i hi hik]
    have hidx : (if i < k then i else i - 1) < (specLines content).length := by
      split <;> omega
    rw [List.getElem?_eq_getElem hidx]
    exact ⟨_, rfl⟩

/-- The scenario of the spec: listing `a/b.txt`, `c.txt` at entry 1 of 3, NUL after the
block. -/
theorem get_listfile_assigns_lines_witness :
    get_listfile scenarioWorld 3 listfile_init
      = Ran.done ⟨⟨3, [some "a/b.txt".toList, some "listfile.txt".toList,
          some "c.txt".toList], true⟩, [0, 1, 2], false⟩ ∧
    ∃ built, get_listfile scenarioWorld 3 listfile_init = Ran.done built ∧
      built.listfile.is_loaded = true ∧
      built.listfile.entries.length = 3 ∧
      built.listfile.entries[1]? = some (some listfile_txt) ∧
      (∀ i, i < 3 → i ≠ 1 →
        built.listfile.entries[i]?
          = some (((specLines "a/b.txt\nc.txt".toList)[if i < 1 then i else i - 1]?).map
              (fun l => l.take PATH_MAX))) ∧
      (∀ s ∈ built.stores, s < 3) ∧
      ((specLines "a/b.txt\nc.txt".toList).length = 3 - 1 →
        ∀ i, i < 3 → ∃ e, built.listfile.entries[i]? = some (some e)) :=
  ⟨by decide,
    get_listfile_assigns_lines scenarioWorld listfile_init 3 1 "a/b.txt\nc.txt".toList []
      rfl rfl (by decide) (by decide) (by decide) (by decide)⟩

/-- C1, as stated for every listing content, fails.  The listing is tokenised without a
terminator, so the last line runs on into the bytes that follow the block: in the scenario
of the spec with `!` and NUL after the block, slot 2 receives `c.txt!`, not `c.txt`.  And a
NUL inside the listing ends it: of the bytes `a`, NUL, `b`, LF, `c` (two lines, listing at
entry 2 of 3) only `a` is read and slot 1 stays a null pointer. -/
theorem get_listfile_reads_past_block :
    (specLines "a/b.txt\nc.txt".toList = ["a/b.txt".toList, "c.txt".toList] ∧
      get_listfile overreadWorld 3 listfile_init
        = Ran.done ⟨⟨3, [some "a/b.txt".toList, some "listfile.txt".toList,
            some "c.txt!".toList], true⟩, [0, 1, 2], false⟩ ∧
      "c.txt!".toList ≠ "c.txt".toList.take PATH_MAX) ∧
    (specLines ['a', NUL, 'b', LF, 'c'] = [['a', NUL, 'b'], ['c']] ∧
      get_listfile nulWorld 3 listfile_init
        = Ran.done ⟨⟨3, [some ['a'], none, some "listfile.txt".toList], true⟩, [0, 2],
            true⟩) := by
  decide

/-- C2 : name resolution never fails for a valid index.  For every table state that
`get_listfile` leaves behind - that is, for every run of it that completes, writing only
inside the listing block and the table: no listing found (the global `listfile` being
unloaded, as at program start or after `destroy_listfile`), or a listing of any content,
complete or not, whatever bytes follow its block in memory - `libmpq__file_name` for an index
`i < total` writes a name whose first byte is not NUL.  Such states exist: the model never
stops for lack of fuel, the run without listing completes, and so does every run on a listing
whose text (the bytes up to the first NUL) lies inside the block, the listing being at entry
`k < total` and having at most `k` lines when `k` is the last slot. -/
theorem file_name_never_empty (w : World) (prev : listfile_s) (total i : Nat)
    (hprev : w.listfile = none → prev.is_loaded = false) (hi : i < total) :
    (∀ built, get_listfile w total prev = Ran.done built →
      ∃ r c rest, libmpq__file_name built.listfile i PATH_MAX = some (r, c :: rest) ∧
        c ≠ NUL) ∧
    get_listfile w total prev ≠ Ran.out_of_fuel ∧
    (w.listfile = none → ∃ built, get_listfile w total prev = Ran.done built) ∧
    (∀ k content, w.listfile = some (k, content) → NUL ∈ content ++ w.heap_after →
      (cstr (content ++ w.heap_after)).length ≤ content.length → k < total →
      (k + 1 = total → (specLines (cstr (content ++ w.heap_after))).length ≤ k) →
      ∃ built, get_listfile w total prev = Ran.done built) := by
  refine ⟨?_, get_listfile_fuel w total prev,
    fun hw => ⟨_, get_listfile_none w total prev hw⟩, ?_⟩
  · intro built hbuilt
    obtain ⟨hnone, hsome⟩ := get_listfile_names w total prev built hbuilt
    obtain ⟨r0, rest0, hsn, hr0⟩ := snprintf_file_head i
    have hplace : (let r := snprintf_file PATH_MAX i
        if r.1 < 0 then some (LIBMPQ_ERROR_FORMAT, r.2) else some r)
          = some (r0, 'f' :: rest0) := by
      simp only [hsn, if_neg hr0]
    cases hw : w.listfile with
    | none =>
      refine ⟨r0, 'f', rest0, ?_, by decide⟩
      rw [hnone hw]
      simp only [libmpq__file_name, hprev hw, Bool.false_eq_true, if_false]
      exact hplace
    | some kc =>
      obtain ⟨hloaded, hlen, hslots⟩ := hsome (by rw [hw]; exact fun h => by cases h)
      have hlt : i < built.listfile.entries.length := by omega
      have hget : built.listfile.entries.get? i = some (built.listfile.entries[i]) := by
        rw [List.get?_eq_getElem?, List.getElem?_eq_getElem hlt]
      cases hx : built.listfile.entries[i] with
      | none =>
        refine ⟨r0, 'f', rest0, ?_, by decide⟩
        simp only [libmpq__file_name, hloaded, if_true, hget, hx]
        exact hplace
      | some e =>
        have hmem : some e ∈ built.listfile.entries := by
          rw [← hx]; exact List.getElem_mem _
        obtain ⟨c, rest, hcr, hc⟩ := hslots e hmem
        refine ⟨PATH_MAX, c, rest, ?_, hc⟩
        simp only [libmpq__file_name, hloaded, if_true, hget, hx, hcr]
  · intro k content hw hnul hin hk hsafe
    obtain ⟨built, hb, _⟩ := get_listfile_spec w total prev k content hw hnul hin hk hsafe
    exact ⟨built, hb⟩

/-- The listing of the spec's scenario with `!` after its block, where entry 2 resolves to
`c.txt!`; and entry 2 of an archive without listing. -/
theorem file_name_never_empty_witness :
    (∃ built, get_listfile overreadWorld 3 listfile_init = Ran.done built ∧
      libmpq__file_name built.listfile 2 PATH_MAX
        = some ((PATH_MAX : Int), "c.txt!".toList)) ∧
    (∀ built, get_listfile overreadWorld 3 listfile_init = Ran.done built →
      ∃ r c rest, libmpq__file_name built.listfile 2 PATH_MAX = some (r, c :: rest) ∧
        c ≠ NUL) ∧
    (∀ built, get_listfile (plainWorld 3) 3 listfile_init = Ran.done built →
      ∃ r c rest, libmpq__file_name built.listfile 2 PATH_MAX = some (r, c :: rest) ∧
        c ≠ NUL) :=
  ⟨⟨_, rfl, by decide⟩,
    (file_name_never_empty overreadWorld listfile_init 3 2 (fun _ => rfl) (by decide)).1,
    (file_name_never_empty (plainWorld 3) listfile_init 3 2 (fun _ => rfl) (by decide)).1⟩

theorem readsOf_append (a b : List Event) : readsOf (a ++ b) = readsOf a ++ readsOf b := by
  simp [readsOf, List.filterMap_append]

theorem opensOf_append (a b : List Event) : opensOf (a ++ b) = opensOf a ++ opensOf b := by
  simp [opensOf, List.filterMap_append]

theorem readsOf_dirsOf (p : List Char) : readsOf (dirsOf p) = [] := by
  simp [readsOf, dirsOf, List.filterMap_map]

theorem opensOf_dirsOf (p : List Char) : opensOf (dirsOf p) = [] := by
  simp [opensOf, dirsOf, List.filterMap_map]

theorem readCStr_of_short (b : Buf) (h : b.length < PATH_MAX) : readCStr b = some (cstr b) := by
  unfold readCStr
  have : (cstr b).length ≤ b.length := by
    unfold cstr
    exact (List.takeWhile_sublist _).length_le
  rw [if_pos (by omega)]

theorem snprintf_file_short (i : Nat) :
    ∃ r name, snprintf_file PATH_MAX i = (r, name) ∧ ¬ r < 0 ∧ name.length < PATH_MAX := by
  refine ⟨_, _, rfl, ?_, ?_⟩
  · simp; omega
  · rw [List.length_take]
    have : PATH_MAX = 4096 := rfl
    omega

/-- With the table not loaded every name is a placeholder, terminated within its array. -/
theorem names_ok_unloaded (l : listfile_s) (total : Nat) (h : l.is_loaded = false) :
    NamesOK l total := by
  intro j _
  obtain ⟨r, name, h1, h2, h3⟩ := snprintf_file_short j
  refine ⟨r, name, _, ?_, readCStr_of_short name h3⟩
  simp only [libmpq__file_name, h, Bool.false_eq_true, if_false, h1, if_neg h2]

/-- A loaded table of `total` slots whose names are all shorter than `PATH_MAX`: every name
resolved is terminated within its array. -/
theorem names_ok_of_short (l : listfile_s) (total : Nat) (hlen : l.entries.length = total)
    (hshort : ∀ e, some e ∈ l.entries → e.length < PATH_MAX) : NamesOK l total := by
  intro j hj
  obtain ⟨r, name, h1, h2, h3⟩ := snprintf_file_short j
  have hlt : j < l.entries.length := by omega
  have hget : l.entries.get? j = some (l.entries[j]) := by
    rw [List.get?_eq_getElem?, List.getElem?_eq_getElem hlt]
  cases hl : l.is_loaded with
  | false => exact names_ok_unloaded l total hl j hj
  | true =>
    cases hx : l.entries[j] with
    | none =>
      refine ⟨r, name, _, ?_, readCStr_of_short name h3⟩
      simp only [libmpq__file_name, hl, if_true, hget, hx, h1, if_neg h2]
    | some e0 =>
      have hmem : some e0 ∈ l.entries := by
        rw [← hx]; exact List.getElem_mem _
      refine ⟨PATH_MAX, e0, _, ?_, readCStr_of_short e0 (hshort e0 hmem)⟩
      simp only [libmpq__file_name, hl, if_true, hget, hx]
theorem destroy_listfile_unloaded (l : listfile_s) : (destroy_listfile l).is_loaded = false := by
  unfold destroy_listfile
  cases h : l.is_loaded <;> simp [h]

theorem create_dirs_dirsOf (mkdirat : List Event → List Char → Option Nat) (p : List Char)
    (hnul : NUL ∉ p) (hlen : p.length < PATH_MAX)
    (hmk : ∀ tr dir, mkdirat tr dir ≠ some EACCES ∧ mkdirat tr dir ≠ some ENOTDIR)
    (tr : List Event) : create_dirs mkdirat p tr = some (0, tr ++ dirsOf p) :=
  create_dirs_spec mkdirat p hnul hlen hmk tr

theorem extract_body_spec (w : World) (l : listfile_s) (j : Nat) (tr : List Event)
    (hb : Benign w)
    (hname : ∃ r name n, libmpq__file_name l j PATH_MAX = some (r, name) ∧
      readCStr name = some n) :
    ∃ p sz tr1, readsOf tr1 = readsOf tr ∧ opensOf tr1 = opensOf tr ++ [p] ∧
      extract_body w l j tr = some (
        if w.file_read tr1 j < 0 then
          Step.ret (w.file_read tr1 j) (destroy_listfile l)
            (tr1 ++ [Event.file_read j] ++
              [Event.fclose, Event.destroy_listfile, Event.archive_close])
        else Step.next (tr1 ++ [Event.file_read j, Event.fwrite sz, Event.fclose])) := by
  obtain ⟨r, name, n, hfn, hrd⟩ := hname
  obtain ⟨conv, hconv, hrc⟩ := convert_path_spec hrd
  generalize List.map (fun c => if c = BACKSLASH then SLASH else c) n = p at hrc
  obtain ⟨_, hplen, hpnul⟩ := readCStr_some hrc
  have hcd := create_dirs_dirsOf w.mkdirat _ hpnul hplen hb.mkdirat tr
  refine ⟨p, w.file_size_unpacked (tr ++ dirsOf p ++ [Event.fopen p]) j,
    tr ++ dirsOf p ++ [Event.fopen p] ++ [Event.file_size_unpacked j], ?_, ?_, ?_⟩
  · have h1 : readsOf [Event.fopen p] = [] := rfl
    have h2 : readsOf [Event.file_size_unpacked j] = [] := rfl
    simp only [readsOf_append, readsOf_dirsOf, h1, h2, List.append_nil]
  · have h1 : opensOf [Event.fopen p] = [p] := rfl
    have h2 : opensOf [Event.file_size_unpacked j] = [] := rfl
    simp only [opensOf_append, opensOf_dirsOf, h1, h2, List.append_nil]
  · by_cases hres :
        w.file_read (tr ++ dirsOf p ++ [Event.fopen p] ++ [Event.file_size_unpacked j]) j < 0
    · simp only [extract_body, hfn, hconv, hrc, hcd, mpq_extract__extract_file, hb.fopen,
        hb.malloc, ne_eq, not_true_eq_false, if_false, Bool.true_eq_false, hres, if_true,
        hb.fclose]
    · simp only [extract_body, hfn, hconv, hrc, hcd, mpq_extract__extract_file, hb.fopen,
        hb.malloc, ne_eq, not_true_eq_false, if_false, Bool.true_eq_false, hres, if_true,
        hb.fclose]
      simp
theorem extract_loop_stops (w : World) (l : listfile_s) (total i : Nat) (r : Int)
    (hb : Benign w) (hnames : NamesOK l total) (hr : r < 0)
    (hok : ∀ tr j, j < i → ¬ w.file_read tr j < 0) (hfail : ∀ tr, w.file_read tr i = r) :
    ∀ (remaining j : Nat) (tr : List Event), j ≤ i → i < j + remaining →
      j + remaining ≤ total →
      ∃ tr', extract_loop w l remaining j tr
          = some (Step.ret r (destroy_listfile l)
              (tr' ++ [Event.fclose, Event.destroy_listfile, Event.archive_close])) ∧
        readsOf tr' = readsOf tr ++ List.range' j (i + 1 - j) ∧
        (opensOf tr').length = (opensOf tr).length + (i + 1 - j) := by
  intro remaining
  induction remaining with
  | zero => intro j tr h1 h2 _; omega
  | succ remaining ih =>
    intro j tr h1 h2 h3
    obtain ⟨p, sz, tr1, hreads, hopens, hbody⟩ :=
      extract_body_spec w l j tr hb (hnames j (by omega))
    by_cases hji : j = i
    · subst hji
      rw [hfail tr1, if_pos hr] at hbody
      refine ⟨tr1 ++ [Event.file_read j], ?_, ?_, ?_⟩
      · simp only [extract_loop, hbody]
      · have h1 : readsOf [Event.file_read j] = [j] := rfl
        have h2 : j + 1 - j = 1 := by omega
        rw [readsOf_append, hreads, h1, h2]
        rfl
      · have h1 : opensOf [Event.file_read j] = [] := rfl
        rw [opensOf_append, hopens, h1]
        simp
    · have hlt : j < i := by omega
      rw [if_neg (hok tr1 j hlt)] at hbody
      obtain ⟨tr', hloop, hr', ho'⟩ :=
        ih (j + 1) (tr1 ++ [Event.file_read j, Event.fwrite sz, Event.fclose])
          (by omega) (by omega) (by omega)
      refine ⟨tr', ?_, ?_, ?_⟩
      · simp only [extract_loop, hbody]
        exact hloop
      · have h1 : readsOf [Event.file_read j, Event.fwrite sz, Event.fclose] = [j] := rfl
        have h2 : i + 1 - j = (i + 1 - (j + 1)) + 1 := by omega
        rw [hr', readsOf_append, hreads, h1, h2, List.range'_succ]
        simp
      · have h1 : opensOf [Event.file_read j, Event.fwrite sz, Event.fclose] = [] := rfl
        rw [ho', opensOf_append, hopens, h1]
        simp
        omega

/-- C7 : bulk extraction stops at the first failing entry.  When `mpq_extract__extract` runs
over all entries of an archive whose name table `get_listfile` has completed (writing only
inside the listing block and the table), with every name terminated within its array
(shorter than `PATH_MAX`), in a world where directory creation, `fopen`, `malloc` and `fclose`
succeed, and `libmpq__file_read` succeeds for the entries below `i` and fails for entry `i`
with a negative code `r` (any code, `LIBMPQ_ERROR_EXIST` included), the function returns `r`;
the entries read are exactly `0, 1, .., i` in ascending order, `i + 1` files were opened, and
the run ends with `fclose`, `destroy_listfile` and `libmpq__archive_close`, leaving the table
unloaded. -/
theorem extract_all_stops_at_first_failure (w : World) (prev : listfile_s) (built : Built)
    (i : Nat) (r : Int)
    (hopen : ¬ w.archive_open < 0)
    (hbuilt : get_listfile w w.archive_files prev = Ran.done built)
    (hnames : NamesOK built.listfile w.archive_files)
    (hb : Benign w) (hi : i < w.archive_files) (hr : r < 0)
    (hok : ∀ tr j, j < i → ¬ w.file_read tr j < 0) (hfail : ∀ tr, w.file_read tr i = r) :
    ∃ l tr, mpq_extract__extract w UINT_MAX prev
        = some (r, l, tr ++ [Event.fclose, Event.destroy_listfile, Event.archive_close]) ∧
      l.is_loaded = false ∧ readsOf tr = List.range (i + 1) ∧
      (opensOf tr).length = i + 1 := by
  obtain ⟨tr2, hloop, hreads, hopens⟩ :=
    extract_loop_stops w built.listfile w.archive_files i r hb hnames hr hok hfail
      w.archive_files 0 [] (by omega) (by omega) (by omega)
  refine ⟨destroy_listfile built.listfile, tr2, ?_, destroy_listfile_unloaded _, ?_, ?_⟩
  · simp only [mpq_extract__extract, if_neg hopen, hbuilt, ne_eq, not_true_eq_false, if_false,
      hloop]
  · rw [hreads, List.range_eq_range']
    rfl
  · rw [hopens]
    simp [opensOf]
/-- An archive of 3 entries without listing whose entry 1 fails with `LIBMPQ_ERROR_EXIST`;
and an archive of 3 entries whose listing (entry 1, followed by NUL) names `a` and `b`, entry
0 failing with -4. -/
theorem extract_all_stops_at_first_failure_witness :
    (∃ l tr, mpq_extract__extract notFoundWorld UINT_MAX listfile_init
        = some (LIBMPQ_ERROR_EXIST, l,
            tr ++ [Event.fclose, Event.destroy_listfile, Event.archive_close]) ∧
      l.is_loaded = false ∧ readsOf tr = List.range (1 + 1) ∧
      (opensOf tr).length = 1 + 1) ∧
    (∃ l tr, mpq_extract__extract { listedWorld with file_read := fun _ _ => -4 } UINT_MAX
          listfile_init
        = some (-4, l, tr ++ [Event.fclose, Event.destroy_listfile, Event.archive_close]) ∧
      l.is_loaded = false ∧ readsOf tr = List.range (0 + 1) ∧
      (opensOf tr).length = 0 + 1) :=
  ⟨extract_all_stops_at_first_failure notFoundWorld listfile_init ⟨listfile_init, [], false⟩
      1 LIBMPQ_ERROR_EXIST (by decide) rfl (names_ok_unloaded _ _ rfl)
      ⟨fun _ _ => ⟨by simp [notFoundWorld, plainWorld], by simp [notFoundWorld, plainWorld]⟩,
        fun _ _ => rfl, fun _ _ => rfl, fun _ => by simp [notFoundWorld, plainWorld]⟩
      (by decide) (by decide)
      (fun _ j hj => by
        have : j ≠ 1 := by omega
        simp [notFoundWorld, this])
      (fun _ => rfl),
    extract_all_stops_at_first_failure { listedWorld with file_read := fun _ _ => -4 }
      listfile_init
      ⟨⟨3, [some "a".toList, some "listfile.txt".toList, some "b".toList], true⟩, [0, 1, 2],
        false⟩
      0 (-4) (by decide) (by decide)
      (names_ok_of_short _ 3 rfl (fun e he => by
        simp only [List.mem_cons, Option.some.injEq, List.mem_singleton, List.not_mem_nil,
          or_false] at he
        rcases he with h | h | h <;> subst h <;> decide))
      ⟨fun _ _ => ⟨by simp [listedWorld, plainWorld], by simp [listedWorld, plainWorld]⟩,
        fun _ _ => rfl, fun _ _ => rfl, fun _ => by simp [listedWorld, plainWorld]⟩
      (by decide) (by decide)
      (fun _ j hj => by omega)
      (fun _ => rfl)⟩

/-- C7, as stated, fails: in an archive of 3 entries whose entry 1 fails with
`LIBMPQ_ERROR_EXIST`, the run over all entries returns `LIBMPQ_ERROR_EXIST` after entry 1;
entry 2 is neither opened nor read. -/
theorem extract_all_not_found_aborts :
    mpq_extract__extract notFoundWorld UINT_MAX listfile_init
      = some (LIBMPQ_ERROR_EXIST, listfile_init,
          [Event.fopen "file000000.xxx".toList, Event.file_size_unpacked 0, Event.file_read 0,
            Event.fwrite 0, Event.fclose,
            Event.fopen "file000001.xxx".toList, Event.file_size_unpacked 1, Event.file_read 1,
            Event.fclose, Event.destroy_listfile, Event.archive_close]) := by
  decide
theorem toDigits_length_le (i : Nat) (hi : i < 2 ^ 31) : (Nat.toDigits 10 i).length ≤ 10 := by
  unfold Nat.toDigits
  apply Nat.toDigitsCore_length 10 (by decide) (i + 1) i 10 _ (by decide)
  have : (2 : Nat) ^ 31 < 10 ^ 10 := by decide
  omega

theorem asInt_of_small (i : Nat) (hi : i < 2 ^ 31) : asInt i = (i : Int) := by
  unfold asInt
  have h32 : i % 2 ^ 32 = i := Nat.mod_eq_of_lt (by
    have : (2 : Nat) ^ 31 < 2 ^ 32 := by decide
    omega)
  rw [h32, if_pos hi]

theorem snprintf_file_of_small (i : Nat) (hi : i < 2 ^ 31) :
    snprintf_file PATH_MAX i = (((placeholder_name i).length : Int), placeholder_name i) := by
  have hfmt : fmt_06i (asInt i) = zeroPad 6 (Nat.toDigits 10 i) := by
    rw [asInt_of_small i hi]
    simp [fmt_06i]
  have hlen : (placeholder_name i).length ≤ PATH_MAX - 1 := by
    have := toDigits_length_le i hi
    have hp : PATH_MAX = 4096 := rfl
    simp only [placeholder_name, zeroPad, List.length_append, List.length_replicate, hp]
    have h1 : "file".toList.length = 4 := rfl
    have h2 : ".xxx".toList.length = 4 := rfl
    omega
  unfold snprintf_file
  simp only [hfmt]
  rw [show "file".toList ++ zeroPad 6 (Nat.toDigits 10 i) ++ ".xxx".toList
      = placeholder_name i from rfl, List.take_of_length_le hlen]

/-- The placeholder rule below `2 ^ 31`: when the table is not loaded or slot `i` is a null
pointer, `libmpq__file_name` writes `file`, the zero-padded decimal digits of `i`, `.xxx`;
when the table is loaded and slot `i` holds a name, it writes that name. -/
theorem file_name_placeholder_of_small (l : listfile_s) (i : Nat) (hi : i < 2 ^ 31) :
    ((l.is_loaded = false ∨ l.entries[i]? = some none) →
      libmpq__file_name l i PATH_MAX
        = some (((placeholder_name i).length : Int), placeholder_name i)) ∧
    (∀ e, l.is_loaded = true → l.entries[i]? = some (some e) →
      libmpq__file_name l i PATH_MAX = some ((PATH_MAX : Int), e)) := by
  constructor
  · intro h
    have hneg : ¬ ((placeholder_name i).length : Int) < 0 := by omega
    cases hl : l.is_loaded with
    | false =>
      simp only [libmpq__file_name, hl, Bool.false_eq_true, if_false, snprintf_file_of_small i hi,
        if_neg hneg]
    | true =>
      rcases h with h | h
      · rw [hl] at h; cases h
      · simp only [libmpq__file_name, hl, if_true, List.get?_eq_getElem?, h,
          snprintf_file_of_small i hi, if_neg hneg]
  · intro e hl he
    simp only [libmpq__file_name, hl, if_true, List.get?_eq_getElem?, he]

/-- C3 : at entry index `2147483648` (an `uint32_t` value) with the table not loaded,
`libmpq__file_name` writes `file-2147483648.xxx`: the conversion `%06i` prints the index as
a signed `int`.  The placeholder rule asks for `file2147483648.xxx`. -/
theorem file_name_placeholder_signed :
    libmpq__file_name listfile_init 2147483648 PATH_MAX
        = some (19, "file-2147483648.xxx".toList) ∧
      placeholder_name 2147483648 = "file2147483648.xxx".toList ∧
      "file-2147483648.xxx".toList ≠ placeholder_name 2147483648 := by
  decide

/-- The single-entry branch of `mpq_extract__extract` never consults the entry count: with
no listing in the archive, the outcome for a requested index is the same whatever
`libmpq__archive_files` reports. -/
theorem extract_single_ignores_count (w : World) (n i : Nat) (prev : listfile_s)
    (hi : i ≠ UINT_MAX) (hw : w.listfile = none) :
    mpq_extract__extract { w with archive_files := n } i prev
      = mpq_extract__extract w i prev := by
  simp only [mpq_extract__extract, get_listfile, hw, ne_eq, hi, not_false_eq_true, if_true]
  rfl

/-- C5 : `mpq_extract__extract` makes no comparison of the requested index with the entry
count.  For entry 5 of an archive of 3 entries it creates `file000005.xxx` and returns what
the collaborator's read returns: 0 when the read answers 0, -4 when it answers -4, and
`LIBMPQ_ERROR_EXIST` only when the read itself answers so, the file being created all the
same. -/
theorem extract_single_out_of_range :
    mpq_extract__extract (plainWorld 3) 5 listfile_init
        = some (0, listfile_init,
            [Event.fopen "file000005.xxx".toList, Event.file_size_unpacked 5,
              Event.file_read 5, Event.fwrite 0, Event.fclose, Event.destroy_listfile,
              Event.archive_close]) ∧
      mpq_extract__extract { plainWorld 3 with file_read := fun _ _ => -4 } 5 listfile_init
        = some (-4, listfile_init,
            [Event.fopen "file000005.xxx".toList, Event.file_size_unpacked 5,
              Event.file_read 5, Event.fclose, Event.destroy_listfile,
              Event.archive_close]) ∧
      mpq_extract__extract
          { plainWorld 3 with file_read := fun _ j => if 3 ≤ j then LIBMPQ_ERROR_EXIST else 0 }
          5 listfile_init
        = some (LIBMPQ_ERROR_EXIST, listfile_init,
            [Event.fopen "file000005.xxx".toList, Event.file_size_unpacked 5,
              Event.file_read 5, Event.fclose, Event.destroy_listfile,
              Event.archive_close]) := by
  decide

/-- The bounds check of `mpq_extract__list` on a non-empty archive (`1 <= n < 2 ^ 32`) whose
name table `get_listfile` has completed: a single index `i >= n` gives
`LIBMPQ_ERROR_EXIST` with no metadata query (and neither `destroy_listfile` nor
`libmpq__archive_close`); an index `i < n` gives 0. -/
theorem list_bounds_check_nonempty (w : World) (prev : listfile_s) (built : Built)
    (i number files : Nat)
    (hopen : ¬ w.archive_open < 0) (hn : 1 ≤ w.archive_files) (hn32 : w.archive_files < 2 ^ 32)
    (hprev : w.listfile = none → prev.is_loaded = false)
    (hbuilt : get_listfile w w.archive_files prev = Ran.done built) (hi : i ≠ UINT_MAX) :
    (w.archive_files ≤ i →
      mpq_extract__list w i number files prev
        = some (LIBMPQ_ERROR_EXIST, built.listfile, [])) ∧
    (i < w.archive_files →
      mpq_extract__list w i number files prev
        = some (0, destroy_listfile built.listfile,
            metadata_queries i ++ [Event.destroy_listfile, Event.archive_close])) := by
  have hsub : (w.archive_files + 2 ^ 32 - 1) % 2 ^ 32 = w.archive_files - 1 := by
    have h32 : (2 : Nat) ^ 32 = 4294967296 := by decide
    rw [h32] at hn32 ⊢
    omega
  constructor
  · intro hge
    have hgt : i > w.archive_files - 1 := by omega
    simp only [mpq_extract__list, if_neg hopen, hbuilt, ne_eq, hi, not_false_eq_true, if_true,
      hsub, if_pos hgt]
  · intro hlt
    obtain ⟨r, c, rest, hname, _⟩ :=
      (file_name_defined_of_built w prev w.archive_files i hprev hlt) built hbuilt
    have hgt : ¬ i > w.archive_files - 1 := by omega
    simp only [mpq_extract__list, if_neg hopen, hbuilt, ne_eq, hi, not_false_eq_true, if_true,
      hsub, if_neg hgt, hname]

/-- C6 : on the empty archive the bounds check of `mpq_extract__list` lets every index
through: `total_files - 1` is `4294967295` in `unsigned int`.  For `n = 0` and index 0 the
function makes the five metadata queries for entry 0 and returns 0, not
`LIBMPQ_ERROR_EXIST`. -/
theorem list_empty_archive_passes_check :
    mpq_extract__list (plainWorld 0) 0 0 1 listfile_init
      = some (0, listfile_init,
          [Event.file_size_packed 0, Event.file_size_unpacked 0, Event.file_encrypted 0,
            Event.file_compressed 0, Event.file_imploded 0, Event.destroy_listfile,
            Event.archive_close]) := by
  decide

/-- C8 : exit paths of `mpq_extract__extract` that skip the release.  When `fopen` fails for
a single entry the function returns `LIBMPQ_ERROR_OPEN` after `destroy_listfile` without
`libmpq__archive_close`; when `fclose` fails it returns `LIBMPQ_ERROR_CLOSE` with the table
still loaded and neither `destroy_listfile` nor `libmpq__archive_close` called. -/
theorem extract_exit_paths_skip_release :
    mpq_extract__extract { plainWorld 3 with fopen := fun _ _ => false } 1 listfile_init
        = some (LIBMPQ_ERROR_OPEN, listfile_init,
            [Event.fopen "file000001.xxx".toList, Event.destroy_listfile]) ∧
      mpq_extract__extract { listedWorld with fclose := fun _ => -1 } 0 listfile_init
        = some (LIBMPQ_ERROR_CLOSE,
            ⟨3, [some "a".toList, some "listfile.txt".toList, some "b".toList], true⟩,
            [Event.fopen "a".toList, Event.file_size_unpacked 0, Event.file_read 0,
              Event.fwrite 0, Event.fclose]) := by
  decide

/-- C9 : the compression ratio `100 - |packed / unpacked * 100|`, computed in floating point
whose rounding leaves 0, 1 and 100 alone: for every unpacked size `u > 0`,
`ratio(u, u) = 0` and `ratio(0, u) = 100`. -/
theorem ratio_values (F : FloatArith) (hF : F.Sound) (u : Int) (hu : 0 < u) :
    ratio F u u = 0 ∧ ratio F 0 u = 100 := by
  have hne := hF.toFloat_pos u hu
  constructor
  · simp [ratio, div_self hne, hF.rnd_one, hF.rnd_hundred, hF.rndD_zero]
  · simp [ratio, hF.toFloat_zero, hF.rnd_zero, hF.rndD_hundred]

theorem exactArith_sound : exactArith.Sound :=
  ⟨rfl, rfl, rfl, rfl, rfl, by simp [exactArith], by
    intro u hu; simp [exactArith]; omega⟩

theorem ratio_values_witness :
    (0 : Int) < 7 ∧ ratio exactArith 7 7 = 0 ∧ ratio exactArith 0 7 = 100 :=
  ⟨by decide, ratio_values exactArith exactArith_sound 7 (by decide)⟩

/-- C10 : `get_listfile` assigns past the table.  With 2 entries, the listing at entry 1 (the
last) and 2 lines in it, the slots assigned to are 0, 1 and 2: slot 2 lies outside the table
of 2 slots, whether the byte after the listing block is NUL or `!`.  The same happens with 1
entry, the listing at entry 0 and 1 line; and with 3 entries, the listing at entry 2 and 3
lines the slots assigned to are 0, 1, 2 and 3. -/
theorem get_listfile_stores_past_table :
    get_listfile { plainWorld 2 with listfile := some (1, "a\nb".toList), heap_after := [NUL] }
        2 listfile_init = Ran.store_past_table [0, 1, 2] ∧
      get_listfile
        { plainWorld 2 with listfile := some (1, "a\nb".toList), heap_after := ['!', NUL] }
        2 listfile_init = Ran.store_past_table [0, 1, 2] ∧
      get_listfile { plainWorld 1 with listfile := some (0, "a".toList), heap_after := [NUL] }
        1 listfile_init = Ran.store_past_table [0, 1] ∧
      get_listfile
        { plainWorld 3 with listfile := some (2, "a\nb\nc".toList), heap_after := [NUL] }
        3 listfile_init = Ran.store_past_table [0, 1, 2, 3] := by
  decide
end MpqExtract
